import Mathlib

/-!
Verification development for the SynthShare lineage & versioning engine
(backend/synthpatches: utils.py, models.py, views.py).

The Python source is shallowly embedded: strings become `List Char`,
database rows become a `Node` structure, a table becomes a `List Node`
in insertion order, and each query/update is translated into a pure
function over that list.  Machine integers are `Nat`/`Int` (Python ints
are unbounded, so no modular wrap is needed).  Fallible code returns
`Option`.
-/

namespace SynthShare

/-- `BASE32_ALPHABET` from utils.py: digits `0-9` then letters `a-v`. -/
def BASE32_ALPHABET : List Char :=
  "0123456789abcdefghijklmnopqrstuv".toList

/-- `BASE32_ALPHABET[d]`: the character of one base-32 digit. -/
def digitChar (d : Nat) : Char := BASE32_ALPHABET.getD d '0'

/-- Little-endian digit list built by the `while n > 0` loop of `to_base32`. -/
def toBase32Digits : Nat → List Char
  | 0 => []
  | n + 1 => digitChar ((n + 1) % 32) :: toBase32Digits ((n + 1) / 32)
decreasing_by exact Nat.div_lt_self (Nat.succ_pos n) (by norm_num)

/-- `to_base32` from utils.py: `"0"` for zero, else the base-32 digits,
most significant first (the Python loop collects digits and reverses). -/
def to_base32 (n : Nat) : List Char :=
  if n = 0 then ['0'] else (toBase32Digits n).reverse

/-- `BASE32_ALPHABET.index(ch)` as an option: position of `ch` in the
alphabet, `none` when the character is absent (Python raises ValueError). -/
def digitVal? (c : Char) : Option Nat :=
  BASE32_ALPHABET.findIdx? (fun x => x == c)

/-- `from_base32` from utils.py: `none` on the empty string, and `none`
as soon as one character is outside the alphabet (the per-character
`try/except` re-raises), else the accumulated value. -/
def from_base32 (s : List Char) : Option Nat :=
  if s = [] then none
  else s.foldlM (fun n c => (digitVal? c).map (fun d => n * 32 + d)) 0

/-! ### Codec lemmas -/

lemma digitVal?_digitChar : ∀ d : Nat, d < 32 → digitVal? (digitChar d) = some d := by
  decide

/-- Pure big-endian value of a digit list (helper for relating the
monadic fold of `from_base32` to arithmetic). -/
def natOfBE (l : List Char) : Nat :=
  l.foldl (fun n c => n * 32 + (digitVal? c).getD 0) 0

lemma foldlM_digits_some (l : List Char) (h : ∀ c ∈ l, (digitVal? c).isSome) :
    ∀ a : Nat, l.foldlM (fun n c => (digitVal? c).map (fun d => n * 32 + d)) a
      = some (l.foldl (fun n c => n * 32 + (digitVal? c).getD 0) a) := by
  induction l with
  | nil => intro a; rfl
  | cons c cs ih =>
    intro a
    have hc : (digitVal? c).isSome := h c (List.mem_cons_self c cs)
    obtain ⟨d, hd⟩ := Option.isSome_iff_exists.mp hc
    have hrest : ∀ x ∈ cs, (digitVal? x).isSome := fun x hx => h x (List.mem_cons_of_mem c hx)
    simp [List.foldlM_cons, List.foldl_cons, hd, ih hrest]

lemma toBase32Digits_eq_nil_iff (n : Nat) : toBase32Digits n = [] ↔ n = 0 := by
  cases n with
  | zero => simp [toBase32Digits]
  | succ m => simp [toBase32Digits]

lemma toBase32Digits_mem (n : Nat) : ∀ c ∈ toBase32Digits n, ∃ d : Nat, d < 32 ∧ c = digitChar d := by
  induction n using Nat.strong_induction_on with
  | _ n ih =>
    cases n with
    | zero => intro c hc; simp [toBase32Digits] at hc
    | succ m =>
      intro c hc
      rw [toBase32Digits] at hc
      rcases List.mem_cons.mp hc with h | h
      · exact ⟨(m + 1) % 32, Nat.mod_lt _ (by norm_num), h⟩
      · exact ih ((m + 1) / 32) (Nat.div_lt_self (Nat.succ_pos m) (by norm_num)) c h

lemma toBase32Digits_valid (n : Nat) : ∀ c ∈ toBase32Digits n, (digitVal? c).isSome := by
  intro c hc
  obtain ⟨d, hd, rfl⟩ := toBase32Digits_mem n c hc
  rw [digitVal?_digitChar d hd]
  rfl

lemma natOfBE_append (l : List Char) (c : Char) :
    natOfBE (l ++ [c]) = natOfBE l * 32 + (digitVal? c).getD 0 := by
  simp [natOfBE, List.foldl_append]

lemma natOfBE_reverse_digits (n : Nat) : natOfBE (toBase32Digits n).reverse = n := by
  induction n using Nat.strong_induction_on with
  | _ n ih =>
    cases n with
    | zero => simp [toBase32Digits, natOfBE]
    | succ m =>
      rw [toBase32Digits, List.reverse_cons, natOfBE_append,
        ih ((m + 1) / 32) (Nat.div_lt_self (Nat.succ_pos m) (by norm_num)),
        digitVal?_digitChar ((m + 1) % 32) (Nat.mod_lt _ (by norm_num))]
      have := Nat.div_add_mod (m + 1) 32
      simp only [Option.getD_some]
      omega

lemma from_base32_to_base32 (n : Nat) : from_base32 (to_base32 n) = some n := by
  by_cases h0 : n = 0
  · subst h0; decide
  · have hne : toBase32Digits n ≠ [] := fun h => h0 ((toBase32Digits_eq_nil_iff n).mp h)
    have hvalid : ∀ c ∈ (toBase32Digits n).reverse, (digitVal? c).isSome := by
      intro c hc; exact toBase32Digits_valid n c (List.mem_reverse.mp hc)
    rw [to_base32, if_neg h0, from_base32,
      if_neg (by simpa using hne), foldlM_digits_some _ hvalid 0]
    exact congrArg some (natOfBE_reverse_digits n)

lemma digitChar_ne_zero_char : ∀ d : Nat, d < 32 → d ≠ 0 → digitChar d ≠ '0' := by
  decide

lemma to_base32_nonzero_head (n : Nat) (h0 : n ≠ 0) : (to_base32 n).head? ≠ some '0' := by
  rw [to_base32, if_neg h0]
  induction n using Nat.strong_induction_on with
  | _ n ih =>
    cases n with
    | zero => exact absurd rfl h0
    | succ m =>
      rw [toBase32Digits]
      by_cases hq : (m + 1) / 32 = 0
      · have hd : toBase32Digits ((m + 1) / 32) = [] := (toBase32Digits_eq_nil_iff _).mpr hq
        rw [hd]
        have hne : (m + 1) % 32 ≠ 0 := by omega
        have hbound : (m + 1) % 32 < 32 := Nat.mod_lt _ (by norm_num)
        simp only [List.reverse_cons, List.reverse_nil, List.nil_append, List.head?_cons]
        intro hcontra
        have hchar : digitChar ((m + 1) % 32) = '0' := by injection hcontra
        exact digitChar_ne_zero_char _ hbound hne hchar
      · have hne2 : toBase32Digits ((m + 1) / 32) ≠ [] :=
          fun h => hq ((toBase32Digits_eq_nil_iff _).mp h)
        have hrevne : (toBase32Digits ((m + 1) / 32)).reverse ≠ [] := by
          simpa using hne2
        rw [List.reverse_cons, List.head?_append_of_ne_nil _ hrevne]
        exact ih ((m + 1) / 32) (Nat.div_lt_self (Nat.succ_pos m) (by norm_num)) hq

lemma digitVal?_eq_none_iff (c : Char) : digitVal? c = none ↔ c ∉ BASE32_ALPHABET := by
  rw [digitVal?, List.findIdx?_eq_none_iff]
  constructor
  · intro h hmem
    have := h c hmem
    simp at this
  · intro h x hx
    exact beq_eq_false_iff_ne.mpr (fun hxc => h (hxc ▸ hx))

lemma foldlM_digits_none (l : List Char) :
    ∀ a : Nat, (l.foldlM (fun n c => (digitVal? c).map (fun d => n * 32 + d)) a = none
      ↔ ∃ c ∈ l, digitVal? c = none) := by
  induction l with
  | nil => intro a; simp
  | cons c cs ih =>
    intro a
    rw [List.foldlM_cons]
    cases hd : digitVal? c with
    | none => simp [hd]
    | some d =>
      simp only [Option.map_some', Option.bind_eq_bind, Option.some_bind]
      rw [ih (a * 32 + d)]
      constructor
      · rintro ⟨x, hx, hnone⟩; exact ⟨x, List.mem_cons_of_mem c hx, hnone⟩
      · rintro ⟨x, hx, hnone⟩
        rcases List.mem_cons.mp hx with rfl | hx'
        · rw [hd] at hnone; exact absurd hnone (by simp)
        · exact ⟨x, hx', hnone⟩

lemma digitChar_mem_alphabet : ∀ d : Nat, d < 32 → digitChar d ∈ BASE32_ALPHABET := by
  decide

/-! ### Claim C4 -/

/-- C4 counterexample: `from_base32` is NOT case-insensitive.  Decoding
`"a"` yields 10, but decoding its uppercase form `"A"` fails, because
`BASE32_ALPHABET.index` only knows the lowercase alphabet.  This refutes
the claim that decoding a string over the alphabet and decoding its
uppercase form both succeed with the same integer. -/
theorem c4_counterexample :
    from_base32 ['a'] = some 10 ∧ from_base32 ['A'] = none := by
  decide

/-- C4 (amended): `from_base32` fails exactly when the input is empty or
contains a character outside the 32-symbol lowercase alphabet; input is
case-SENSITIVE (uppercase letters are outside the alphabet and are
rejected); `to_base32` only ever emits characters of the lowercase
alphabet. -/
theorem c4_decode_error_behavior :
    (∀ s : List Char, from_base32 s = none ↔ (s = [] ∨ ∃ c ∈ s, c ∉ BASE32_ALPHABET)) ∧
    (∀ n : Nat, ∀ c ∈ to_base32 n, c ∈ BASE32_ALPHABET) := by
  constructor
  · intro s
    by_cases hs : s = []
    · simp [hs, from_base32]
    · rw [from_base32, if_neg hs, foldlM_digits_none s 0]
      constructor
      · rintro ⟨c, hc, hnone⟩
        exact Or.inr ⟨c, hc, (digitVal?_eq_none_iff c).mp hnone⟩
      · rintro (h | ⟨c, hc, hout⟩)
        · exact absurd h hs
        · exact ⟨c, hc, (digitVal?_eq_none_iff c).mpr hout⟩
  · intro n c hc
    by_cases h0 : n = 0
    · subst h0
      have h00 : to_base32 0 = ['0'] := by decide
      rw [h00, List.mem_singleton] at hc
      subst hc; decide
    · rw [to_base32, if_neg h0, List.mem_reverse] at hc
      obtain ⟨d, hd, rfl⟩ := toBase32Digits_mem n c hc
      exact digitChar_mem_alphabet d hd

/-- C4 witness: the amended theorem applied to the concrete input `"w"`
(one character just past the alphabet). -/
theorem c4_witness : from_base32 ['w'] = none :=
  (c4_decode_error_behavior.1 ['w']).mpr (Or.inr ⟨'w', by decide, by decide⟩)

/-! ### Claim C5 -/

/-- C5: the codec round-trip law `decode (encode n) = n` holds for every
natural number, `encode 0 = "0"`, and no encoded output has a leading
zero (except the literal `"0"` itself). -/
theorem c5_codec_round_trip :
    ∀ n : Nat, from_base32 (to_base32 n) = some n ∧ to_base32 0 = ['0'] ∧
      (to_base32 n = ['0'] ∨ (to_base32 n).head? ≠ some '0') := by
  intro n
  refine ⟨from_base32_to_base32 n, by decide, ?_⟩
  by_cases h0 : n = 0
  · subst h0; exact Or.inl (by decide)
  · exact Or.inr (to_base32_nonzero_head n h0)

/-- C5 witness: the round-trip theorem applied at the concrete input 37
(`"15"` in base 32). -/
theorem c5_witness : from_base32 (to_base32 37) = some 37 :=
  (c5_codec_round_trip 37).1

/-! ### Python `int(s, 32)` (used by `_parse_version` and the index scans) -/

/-- Value of one digit as accepted by Python `int(·, 32)`:
case-insensitive `0-9`, `a-v`, `A-V`. -/
def pyDigitVal? (c : Char) : Option Nat :=
  if '0' ≤ c ∧ c ≤ '9' then some (c.toNat - '0'.toNat)
  else if 'a' ≤ c ∧ c ≤ 'v' then some (c.toNat - 'a'.toNat + 10)
  else if 'A' ≤ c ∧ c ≤ 'V' then some (c.toNat - 'A'.toNat + 10)
  else none

/-- Digit run after the first digit: single underscores may separate
digits (Python 3 numeric-literal grouping), nothing else is allowed.
`afterUnd` records that the previous character was an underscore, so a
double or trailing underscore fails. -/
def pyDigitsAux (acc : Nat) (afterUnd : Bool) : List Char → Option Nat
  | [] => if afterUnd then none else some acc
  | c :: cs =>
    match pyDigitVal? c with
    | some d => pyDigitsAux (acc * 32 + d) false cs
    | none => if c = '_' && !afterUnd then pyDigitsAux acc true cs else none

/-- Digit run of Python `int(·, 32)`: nonempty and starting with a digit
(no leading underscore). -/
def pyDigitsVal : List Char → Option Nat
  | [] => none
  | c :: cs =>
    match pyDigitVal? c with
    | some d => pyDigitsAux d false cs
    | none => none

/-- ASCII whitespace stripped by Python `int()` around the literal
(codepoints 9-13, 28-31 and 32; non-ASCII whitespace is out of scope,
the engine only ever stores ASCII). -/
def isPySpace (c : Char) : Bool :=
  c == ' ' || (9 ≤ c.toNat && c.toNat ≤ 13) || (28 ≤ c.toNat && c.toNat ≤ 31)

/-- Python `int(s, 32)` on ASCII input: strip surrounding whitespace, an
optional sign, then the digit run; `none` models the raised ValueError. -/
def pyIntBase32 (s : List Char) : Option Int :=
  match ((s.dropWhile isPySpace).reverse.dropWhile isPySpace).reverse with
  | [] => none
  | c :: rest =>
    if c = '-' then (pyDigitsVal rest).map (fun n => -(n : Int))
    else if c = '+' then (pyDigitsVal rest).map (fun n => (n : Int))
    else (pyDigitsVal (c :: rest)).map (fun n => (n : Int))

/-! ### Version strings -/

/-- Python `version.split('.', 1)`: the part before the first dot and,
when a dot exists, the remainder after it. -/
def splitDot1 : List Char → List Char × Option (List Char)
  | [] => ([], none)
  | c :: rest =>
    if c = '.' then ([], some rest)
    else
      let p := splitDot1 rest
      (c :: p.1, p.2)

/-- Django's `version__startswith=prefix` filter condition. -/
def strStarts (v pfx : List Char) : Bool := v.take pfx.length == pfx

/-- `Patch._parse_version` / `Track._parse_version`: split `'f.e'` once
at a dot and decode both halves with Python `int(·, 32)`; any failure —
missing dot or undecodable segment — falls back to `(0, 0)`; a falsy
(empty) version is read as `'0.0'`. -/
def parse_version (ver : List Char) : Int × Int :=
  let w := if ver = [] then ['0', '.', '0'] else ver
  match splitDot1 w with
  | (f, some e) =>
    match pyIntBase32 f, pyIntBase32 e with
    | some a, some b => (a, b)
    | _, _ => (0, 0)
  | (_, none) => (0, 0)

/-! ### The store model -/

/-- One database row of `Patch`/`Track` (the lineage-relevant columns).
`id` is the primary key; `rootId`, `stemId`, `predId` are the nullable
`root`, `stem` and `immediate_predecessor` foreign keys; `createdAt` is
an abstract timestamp.  A table is a `List Node` in insertion order. -/
structure Node where
  id : Nat
  owner : Nat
  rootId : Option Nat
  stemId : Option Nat
  predId : Option Nat
  version : List Char
  isPosted : Bool
  isDeleted : Bool
  createdAt : Nat
  forks : Nat
deriving DecidableEq, Repr

/-- `Patch._next_edit_index_user`: scan the NON-deleted rows (the
default manager `cls.objects` filters `is_deleted=False`) under `root`
owned by `userId` whose version starts with `forkStr + '.'`; return the
max parsed edit segment + 1 (max starts at 0). -/
def next_edit_index_user (s : List Node) (rootId : Nat) (forkStr : List Char) (userId : Nat) : Int :=
  let versions := (s.filter (fun n =>
    !n.isDeleted && n.rootId == some rootId && n.owner == userId &&
      strStarts n.version (forkStr ++ ['.']))).map (fun n => n.version)
  (versions.foldl (fun m v => if (parse_version v).2 > m then (parse_version v).2 else m) 0) + 1

/-- Loop body of `Patch._next_fork_index_for_root`: a version
contributes its Python-decoded fork segment when it splits at a dot with
edit part exactly `'0'`; the `try/except` silently skips rows failing
either the split or the decode. -/
def forkContrib (v : List Char) : Option Int :=
  match splitDot1 v with
  | (f, some e) => if e = ['0'] then pyIntBase32 f else none
  | (_, none) => none

/-- `Patch._next_fork_index_for_root`: scan ALL rows (`with_deleted()`)
under `root`, collect the fork-head contributions, and return max + 1,
or 1 when nothing was collected. -/
def next_fork_index_for_root (s : List Node) (rootId : Nat) : Int :=
  let versions := (s.filter (fun n => n.rootId == some rootId)).map (fun n => n.version)
  match versions.filterMap forkContrib with
  | [] => 1
  | x :: xs => xs.foldl max x + 1

/-- First row of `order_by('created_at')` (ascending, stable: rows are
scanned in table = insertion order, so ties keep the earlier row). -/
def firstByCreated : List Node → Option Node
  | [] => none
  | x :: xs =>
    match firstByCreated xs with
    | none => some x
    | some m => if m.createdAt < x.createdAt then some m else some x

/-- First row under the model's default `Meta.ordering = ['-created_at']`
(descending, stable), which governs a `.first()` with no explicit
`order_by`. -/
def firstByMetaOrder : List Node → Option Node
  | [] => none
  | x :: xs =>
    match firstByMetaOrder xs with
    | none => some x
    | some m => if m.createdAt > x.createdAt then some m else some x

/-- `Patch._safe_fork_head_lookup`: the fallback chain resolving the
fork head for fork-segment string `fstr` under `root`; all scans use
`with_deleted()`.  The exact `'f.0'` lookup has no explicit order and so
follows the default `-created_at` ordering; the second lookup orders by
`created_at` ascending. -/
def safe_fork_head_lookup (s : List Node) (root : Node) (src : Node) (fstr : List Char) : Node :=
  if fstr = ['0'] then root
  else
    match firstByMetaOrder (s.filter (fun n =>
        n.rootId == some root.id && n.version == fstr ++ ['.', '0'])) with
    | some h => h
    | none =>
      match firstByCreated (s.filter (fun n =>
          n.rootId == some root.id && strStarts n.version (fstr ++ ['.']))) with
      | some h => h
      | none =>
        if (splitDot1 (if src.version = [] then ['0', '.', '0'] else src.version)).1 = fstr
        then src else root

/-! ### The engine's operations -/

/-- The operations the spec's invariants quantify over.  `derive` covers
`edit_from` (`forceFork = false`) and `fork_from` (`forceFork = true`);
`save()` itself then decides edit vs fork. -/
inductive Op where
  | createRoot (owner : Nat)
  | derive (srcId owner : Nat) (forceFork : Bool)
  | softDelete (id : Nat)
deriving DecidableEq, Repr

/-- The freshly inserted row as `super().save()` first writes it, before
`_finalise_fork` / `_finalise_edit` runs: `version` still holds the
column default `'0.0'` and flags hold their defaults.  The scans below
run after this insert and therefore see this row. -/
def draftNode (s : List Node) (owner rootId srcId : Nat) : Node :=
  { id := s.length, owner := owner, rootId := some rootId,
    stemId := some srcId, predId := some srcId,
    version := ['0', '.', '0'], isPosted := false, isDeleted := false,
    createdAt := s.length, forks := 0 }

/-- `Patch._finalise_fork` on the freshly inserted row `selfId`: compute
the next fork index over the inserted rows `s1` (which include the draft
row), write `version`, keep `immediate_predecessor`, repoint `stem` to
self, and bump the origin's `forks` through `with_deleted()` (deletion
state ignored).  `to_base32` raises on a negative index, rolling the
atomic transaction back to the pre-insert state `s0`; the draft row's
`'0.0'` makes that branch unreachable (`fork_index_ge_one` below). -/
def finalise_fork (s0 s1 : List Node) (selfId srcId rootId : Nat) : List Node :=
  let nf := next_fork_index_for_root s1 rootId
  if nf < 0 then s0
  else
    (s1.map (fun n => if n.id == selfId then
        { n with version := to_base32 nf.toNat ++ ['.', '0'],
                 predId := some srcId, stemId := some selfId }
      else n)).map (fun n => if n.id == srcId then { n with forks := n.forks + 1 } else n)

/-- Fork segment of the node being edited:
`(source.version or '0.0').split('.', 1)[0]`. -/
def forkStrOf (src : Node) : List Char :=
  (splitDot1 (if src.version = [] then ['0', '.', '0'] else src.version)).1

/-- `root = source.root or source` as an object: the row the root FK
points to (fetched by pk), or the source itself when the FK is null
(a dangling FK cannot arise under `on_delete=SET_NULL`). -/
def rootNodeOf (s : List Node) (src : Node) : Node :=
  match src.rootId with
  | some rid => (s.find? (fun n => n.id == rid)).getD src
  | none => src

/-- `Patch._finalise_edit` on the freshly inserted row `selfId`: take the
fork segment of the edited node's version, resolve the fork head (stem),
compute the next edit index, and write the new version. -/
def finalise_edit (s1 : List Node) (selfId : Nat) (src rootNode : Node) (owner : Nat) : List Node :=
  let fstr := forkStrOf src
  let head := safe_fork_head_lookup s1 rootNode src fstr
  let ne := next_edit_index_user s1 rootNode.id fstr owner
  s1.map (fun n => if n.id == selfId then
      { n with stemId := some head.id,
               predId := if n.predId.isSome then n.predId else some src.id,
               version := fstr ++ '.' :: to_base32 ne.toNat }
    else n)

/-- The row `Patch.create_root` leaves in the store: root, stem and
version set by the root branch of `save()`. -/
def newRootNode (s : List Node) (owner : Nat) : Node :=
  { id := s.length, owner := owner, rootId := some s.length,
    stemId := some s.length, predId := none,
    version := ['0', '.', '0'], isPosted := false, isDeleted := false,
    createdAt := s.length, forks := 0 }

/-- The view's soft destroy: set `is_deleted` on the row with this pk. -/
def softDel (i : Nat) (n : Node) : Node :=
  if n.id == i then { n with isDeleted := true } else n

/-- One engine operation against the store.  `createRoot` is
`Patch.create_root` (insert, then the root branch of `save()`);
`derive` inserts the draft row and runs the edit-vs-fork decision
`uploaded_by_id == stem.uploaded_by_id and not _force_fork`;
`softDelete` is the soft destroy of the view layer.  An unresolvable
source leaves the store unchanged (`SourceNotFound` is rejected before
any write; a dangling root FK cannot arise, `on_delete=SET_NULL`). -/
def step (s : List Node) : Op → List Node
  | Op.createRoot owner => s ++ [newRootNode s owner]
  | Op.derive srcId owner forceFork =>
    match s.find? (fun n => n.id == srcId) with
    | none => s
    | some src =>
      let rootNode := rootNodeOf s src
      let s1 := s ++ [draftNode s owner rootNode.id srcId]
      if owner == src.owner && !forceFork then
        finalise_edit s1 s.length src rootNode owner
      else
        finalise_fork s s1 s.length srcId rootNode.id
  | Op.softDelete i => s.map (softDel i)

/-- Run a sequence of engine operations from an empty store. -/
def run (ops : List Op) : List Node := ops.foldl step []

/-! ### Facts about alphabet strings and the Python parsers -/

lemma alphabet_char_facts :
    ∀ c ∈ BASE32_ALPHABET, ¬c = '.' ∧ ¬c = '-' ∧ ¬c = '+' ∧ ¬c = '_' ∧
      isPySpace c = false ∧ pyDigitVal? c = digitVal? c := by
  decide

lemma dropWhile_eq_self_of_all {p : Char → Bool} (l : List Char)
    (h : ∀ c ∈ l, p c = false) : l.dropWhile p = l := by
  cases l with
  | nil => rfl
  | cons x xs =>
    rw [List.dropWhile_cons, h x (List.mem_cons_self x xs)]
    simp

lemma digitVal?_isSome_of_mem (c : Char) (h : c ∈ BASE32_ALPHABET) :
    (digitVal? c).isSome := by
  rw [Option.isSome_iff_ne_none]
  intro hn
  exact (digitVal?_eq_none_iff c).mp hn h

lemma pyDigitsAux_digits (l : List Char) (h : ∀ c ∈ l, c ∈ BASE32_ALPHABET) :
    ∀ acc : Nat, pyDigitsAux acc false l
      = some (l.foldl (fun n c => n * 32 + (digitVal? c).getD 0) acc) := by
  induction l with
  | nil => intro acc; rfl
  | cons c cs ih =>
    intro acc
    obtain ⟨d, hd⟩ := Option.isSome_iff_exists.mp
      (digitVal?_isSome_of_mem c (h c (List.mem_cons_self c cs)))
    have hpy : pyDigitVal? c = some d := by
      rw [(alphabet_char_facts c (h c (List.mem_cons_self c cs))).2.2.2.2.2, hd]
    rw [pyDigitsAux, hpy]
    show pyDigitsAux (acc * 32 + d) false cs = _
    rw [ih (fun x hx => h x (List.mem_cons_of_mem c hx)) (acc * 32 + d), List.foldl_cons, hd]
    simp

lemma pyDigitsVal_digits (l : List Char) (hne : l ≠ [])
    (h : ∀ c ∈ l, c ∈ BASE32_ALPHABET) :
    pyDigitsVal l = some (natOfBE l) := by
  cases l with
  | nil => exact absurd rfl hne
  | cons c cs =>
    obtain ⟨d, hd⟩ := Option.isSome_iff_exists.mp
      (digitVal?_isSome_of_mem c (h c (List.mem_cons_self c cs)))
    have hpy : pyDigitVal? c = some d := by
      rw [(alphabet_char_facts c (h c (List.mem_cons_self c cs))).2.2.2.2.2, hd]
    rw [pyDigitsVal, hpy]
    show pyDigitsAux d false cs = _
    rw [pyDigitsAux_digits cs (fun x hx => h x (List.mem_cons_of_mem c hx)) d]
    have : natOfBE (c :: cs) = cs.foldl (fun n x => n * 32 + (digitVal? x).getD 0) d := by
      rw [natOfBE, List.foldl_cons, hd]
      simp
    rw [this]

lemma pyIntBase32_alphabet (l : List Char) (hne : l ≠ [])
    (h : ∀ c ∈ l, c ∈ BASE32_ALPHABET) :
    pyIntBase32 l = some ((natOfBE l : Nat) : Int) := by
  have hsp : ∀ c ∈ l, isPySpace c = false :=
    fun c hc => (alphabet_char_facts c (h c hc)).2.2.2.2.1
  have hstrip1 : l.dropWhile isPySpace = l := dropWhile_eq_self_of_all l hsp
  have hstrip2 : l.reverse.dropWhile isPySpace = l.reverse :=
    dropWhile_eq_self_of_all _ (fun c hc => hsp c (List.mem_reverse.mp hc))
  rw [pyIntBase32, hstrip1, hstrip2, List.reverse_reverse]
  cases l with
  | nil => exact absurd rfl hne
  | cons c cs =>
    have hc := alphabet_char_facts c (h c (List.mem_cons_self c cs))
    simp only [if_neg hc.2.1, if_neg hc.2.2.1]
    rw [pyDigitsVal_digits (c :: cs) (by simp) h]
    rfl

lemma from_base32_some_facts (f : List Char) (k : Nat) (h : from_base32 f = some k) :
    f ≠ [] ∧ (∀ c ∈ f, c ∈ BASE32_ALPHABET) ∧ natOfBE f = k := by
  have hne : f ≠ [] := by
    intro hf
    rw [hf] at h
    simp [from_base32] at h
  have hch : ∀ c ∈ f, c ∈ BASE32_ALPHABET := by
    intro c hc
    by_contra hout
    have hnone : from_base32 f = none := by
      rw [from_base32, if_neg hne, foldlM_digits_none f 0]
      exact ⟨c, hc, (digitVal?_eq_none_iff c).mpr hout⟩
    rw [hnone] at h
    exact Option.noConfusion h
  have hv : ∀ c ∈ f, (digitVal? c).isSome := fun c hc => digitVal?_isSome_of_mem c (hch c hc)
  have hfold := foldlM_digits_some f hv 0
  rw [from_base32, if_neg hne, hfold] at h
  exact ⟨hne, hch, Option.some.inj h⟩

lemma pyIntBase32_of_from_base32 (f : List Char) (k : Nat) (h : from_base32 f = some k) :
    pyIntBase32 f = some ((k : Nat) : Int) := by
  obtain ⟨hne, hch, hval⟩ := from_base32_some_facts f k h
  rw [pyIntBase32_alphabet f hne hch, hval]

lemma to_base32_chars (n : Nat) : ∀ c ∈ to_base32 n, c ∈ BASE32_ALPHABET := by
  intro c hc
  by_cases h0 : n = 0
  · subst h0
    have h00 : to_base32 0 = ['0'] := by decide
    rw [h00, List.mem_singleton] at hc
    subst hc; decide
  · rw [to_base32, if_neg h0, List.mem_reverse] at hc
    obtain ⟨d, hd, rfl⟩ := toBase32Digits_mem n c hc
    exact digitChar_mem_alphabet d hd

lemma to_base32_ne_nil (n : Nat) : to_base32 n ≠ [] := by
  rw [to_base32]
  by_cases h0 : n = 0
  · simp [h0]
  · rw [if_neg h0]
    intro h
    rw [List.reverse_eq_nil_iff, toBase32Digits_eq_nil_iff] at h
    exact h0 h

lemma to_base32_no_dot (n : Nat) : ∀ c ∈ to_base32 n, ¬c = '.' :=
  fun c hc => (alphabet_char_facts c (to_base32_chars n c hc)).1

lemma from_base32_to_base32_val (n : Nat) : natOfBE (to_base32 n) = n := by
  have h := from_base32_to_base32 n
  exact (from_base32_some_facts _ n h).2.2

lemma to_base32_injective (a b : Nat) (h : to_base32 a = to_base32 b) : a = b := by
  have ha := from_base32_to_base32 a
  have hb := from_base32_to_base32 b
  rw [h, hb] at ha
  exact (Option.some.inj ha).symm

lemma splitDot1_append (x u : List Char) (h : ∀ c ∈ x, ¬c = '.') :
    splitDot1 (x ++ '.' :: u) = (x, some u) := by
  induction x with
  | nil => simp [splitDot1]
  | cons c cs ih =>
    rw [List.cons_append, splitDot1, if_neg (h c (List.mem_cons_self c cs))]
    rw [ih (fun a ha => h a (List.mem_cons_of_mem c ha))]

lemma splitDot1_to_base32 (a : Nat) (u : List Char) :
    splitDot1 (to_base32 a ++ '.' :: u) = (to_base32 a, some u) :=
  splitDot1_append _ u (to_base32_no_dot a)

lemma strStarts_of_shape (p rest : List Char) : strStarts (p ++ rest) p = true := by
  rw [strStarts, List.take_left]
  exact beq_self_eq_true p

lemma canonical_eq_segments (x y u v : List Char)
    (hx : ∀ c ∈ x, ¬c = '.') (hy : ∀ c ∈ y, ¬c = '.')
    (h : x ++ '.' :: u = y ++ '.' :: v) : x = y ∧ u = v := by
  have h1 := splitDot1_append x u hx
  have h2 := splitDot1_append y v hy
  rw [h, h2] at h1
  exact ⟨(Prod.mk.injEq _ _ _ _ ▸ h1).1.symm,
    Option.some.inj ((Prod.mk.injEq _ _ _ _ ▸ h1).2).symm⟩

/-! ### Fold bounds -/

lemma foldl_sel_le_init {α : Type} (g : α → Int) (l : List α) :
    ∀ a : Int, a ≤ l.foldl (fun m v => if g v > m then g v else m) a := by
  induction l with
  | nil => intro a; exact le_refl a
  | cons x xs ih =>
    intro a
    rw [List.foldl_cons]
    by_cases hx : g x > a
    · rw [if_pos hx]
      exact le_trans (le_of_lt hx) (ih (g x))
    · rw [if_neg hx]
      exact ih a

lemma foldl_sel_ge_mem {α : Type} (g : α → Int) (l : List α) (v : α) (hv : v ∈ l) :
    ∀ a : Int, g v ≤ l.foldl (fun m v => if g v > m then g v else m) a := by
  induction l with
  | nil => exact absurd hv (List.not_mem_nil v)
  | cons x xs ih =>
    intro a
    rw [List.foldl_cons]
    rcases List.mem_cons.mp hv with rfl | hv'
    · by_cases hx : g v > a
      · rw [if_pos hx]
        exact foldl_sel_le_init g xs (g v)
      · rw [if_neg hx]
        exact le_trans (not_lt.mp hx) (foldl_sel_le_init g xs a)
    · by_cases hx : g x > a
      · rw [if_pos hx]
        exact ih hv' (g x)
      · rw [if_neg hx]
        exact ih hv' a

lemma foldl_sel_attained {α : Type} (g : α → Int) (l : List α) :
    ∀ a : Int, l.foldl (fun m v => if g v > m then g v else m) a = a ∨
      ∃ v ∈ l, l.foldl (fun m v => if g v > m then g v else m) a = g v := by
  induction l with
  | nil => intro a; exact Or.inl rfl
  | cons x xs ih =>
    intro a
    rw [List.foldl_cons]
    by_cases hx : g x > a
    · rw [if_pos hx]
      rcases ih (g x) with h | ⟨v, hv, h⟩
      · exact Or.inr ⟨x, List.mem_cons_self x xs, h⟩
      · exact Or.inr ⟨v, List.mem_cons_of_mem x hv, h⟩
    · rw [if_neg hx]
      rcases ih a with h | ⟨v, hv, h⟩
      · exact Or.inl h
      · exact Or.inr ⟨v, List.mem_cons_of_mem x hv, h⟩

lemma foldl_max_ge_init (l : List Int) : ∀ a : Int, a ≤ l.foldl max a := by
  induction l with
  | nil => intro a; exact le_refl a
  | cons x xs ih =>
    intro a
    rw [List.foldl_cons]
    exact le_trans (le_max_left a x) (ih (max a x))

lemma foldl_max_ge_mem (l : List Int) (x : Int) (hx : x ∈ l) :
    ∀ a : Int, x ≤ l.foldl max a := by
  induction l with
  | nil => exact absurd hx (List.not_mem_nil x)
  | cons y ys ih =>
    intro a
    rw [List.foldl_cons]
    rcases List.mem_cons.mp hx with rfl | hx'
    · exact le_trans (le_max_right a x) (foldl_max_ge_init ys (max a x))
    · exact ih hx' (max a y)

lemma foldl_max_mem (l : List Int) : ∀ a : Int, l.foldl max a = a ∨ l.foldl max a ∈ l := by
  induction l with
  | nil => intro a; exact Or.inl rfl
  | cons x xs ih =>
    intro a
    rw [List.foldl_cons]
    rcases ih (max a x) with h | h
    · rcases max_choice a x with hm | hm
      · exact Or.inl (by rw [h]; exact hm)
      · exact Or.inr (by rw [h, hm]; exact List.mem_cons_self x xs)
    · exact Or.inr (List.mem_cons_of_mem x h)

/-! ### Bounds on the index scans -/

lemma next_fork_gt_contrib (s : List Node) (rootId : Nat) (n : Node)
    (hn : n ∈ s) (hroot : n.rootId = some rootId) (x : Int)
    (hx : forkContrib n.version = some x) :
    x < next_fork_index_for_root s rootId := by
  have hmemf : n ∈ s.filter (fun n => n.rootId == some rootId) :=
    List.mem_filter.mpr ⟨hn, by rw [hroot]; exact beq_self_eq_true _⟩
  have hmemv : n.version ∈ (s.filter (fun n => n.rootId == some rootId)).map
      (fun n => n.version) :=
    List.mem_map.mpr ⟨n, hmemf, rfl⟩
  have hmemx : x ∈ ((s.filter (fun n => n.rootId == some rootId)).map
      (fun n => n.version)).filterMap forkContrib :=
    List.mem_filterMap.mpr ⟨n.version, hmemv, hx⟩
  simp only [next_fork_index_for_root]
  cases hfm : ((s.filter (fun n => n.rootId == some rootId)).map
      (fun n => n.version)).filterMap forkContrib with
  | nil => rw [hfm] at hmemx; exact absurd hmemx (List.not_mem_nil x)
  | cons y ys =>
    rw [hfm] at hmemx
    show x < ys.foldl max y + 1
    rcases List.mem_cons.mp hmemx with rfl | hx'
    · have := foldl_max_ge_init ys x
      omega
    · have := foldl_max_ge_mem ys x hx' y
      omega

lemma next_fork_attained (s : List Node) (rootId : Nat)
    (hne : ∃ n ∈ s, n.rootId = some rootId ∧ (forkContrib n.version).isSome) :
    ∃ n ∈ s, n.rootId = some rootId ∧ ∃ x : Int, forkContrib n.version = some x ∧
      next_fork_index_for_root s rootId = x + 1 := by
  obtain ⟨n0, hn0, hroot0, hsome0⟩ := hne
  obtain ⟨x0, hx0⟩ := Option.isSome_iff_exists.mp hsome0
  have hmemx : x0 ∈ ((s.filter (fun n => n.rootId == some rootId)).map
      (fun n => n.version)).filterMap forkContrib :=
    List.mem_filterMap.mpr ⟨n0.version,
      List.mem_map.mpr ⟨n0, List.mem_filter.mpr ⟨hn0, by rw [hroot0]; exact beq_self_eq_true _⟩, rfl⟩, hx0⟩
  simp only [next_fork_index_for_root]
  cases hfm : ((s.filter (fun n => n.rootId == some rootId)).map
      (fun n => n.version)).filterMap forkContrib with
  | nil => rw [hfm] at hmemx; exact absurd hmemx (List.not_mem_nil x0)
  | cons y ys =>
    have hmax : ys.foldl max y ∈ y :: ys := by
      rcases foldl_max_mem ys y with h | h
      · rw [h]; exact List.mem_cons_self y ys
      · exact List.mem_cons_of_mem y h
    have hmax' : ys.foldl max y ∈ ((s.filter (fun n => n.rootId == some rootId)).map
        (fun n => n.version)).filterMap forkContrib := by rw [hfm]; exact hmax
    obtain ⟨v, hv, hcv⟩ := List.mem_filterMap.mp hmax'
    obtain ⟨m, hmf, hmv⟩ := List.mem_map.mp hv
    obtain ⟨hm, hmr⟩ := List.mem_filter.mp hmf
    refine ⟨m, hm, beq_iff_eq.mp hmr, ys.foldl max y, ?_, rfl⟩
    rw [hmv]; exact hcv

lemma fork_index_ge_one (s : List Node) (rootId : Nat)
    (h : ∃ n ∈ s, n.rootId = some rootId ∧ n.version = ['0', '.', '0']) :
    1 ≤ next_fork_index_for_root s rootId := by
  obtain ⟨n, hn, hroot, hver⟩ := h
  have hc : forkContrib n.version = some 0 := by rw [hver]; decide
  have := next_fork_gt_contrib s rootId n hn hroot 0 hc
  omega

lemma edit_index_ge_one (s : List Node) (rootId : Nat) (forkStr : List Char) (userId : Nat) :
    1 ≤ next_edit_index_user s rootId forkStr userId := by
  rw [next_edit_index_user]
  have := foldl_sel_le_init (fun v => (parse_version v).2)
    ((s.filter (fun n =>
      !n.isDeleted && n.rootId == some rootId && n.owner == userId &&
        strStarts n.version (forkStr ++ ['.']))).map (fun n => n.version)) 0
  omega

lemma forkContrib_some_inv (v : List Char) (x : Int) (h : forkContrib v = some x) :
    ∃ f, splitDot1 v = (f, some ['0']) ∧ pyIntBase32 f = some x := by
  rcases hs : splitDot1 v with ⟨f, oe⟩
  cases oe with
  | none =>
    simp only [forkContrib, hs] at h
    exact Option.noConfusion h
  | some e =>
    simp only [forkContrib, hs] at h
    by_cases he : e = ['0']
    · rw [if_pos he] at h
      refine ⟨f, ?_, h⟩
      rw [he]
    · rw [if_neg he] at h
      exact absurd h (by simp)

/-! ### Claim C10 -/

/-- A store holding one root row whose version is the corrupt string
`"-2.0"`. -/
def exC10 : List Node :=
  [{ id := 0, owner := 1, rootId := some 0, stemId := some 0, predId := none,
     version := ['-', '2', '.', '0'], isPosted := false, isDeleted := false,
     createdAt := 0, forks := 0 }]

/-- C10 counterexample: the next-fork-index computation does NOT skip
every stored version that fails to split into two base-32 segments, and
it can return an integer below 1.  `"-2"` is not a base-32 segment, but
Python's `int('-2', 32)` accepts it, so the stored version `"-2.0"` is
not skipped and the scan returns `-2 + 1 = -1 < 1`. -/
theorem c10_counterexample : next_fork_index_for_root exC10 0 = -1 := by
  decide

/-- C10 (amended): the fork-index scan silently skips a stored version
exactly when it has no dot or Python's `int(·, 32)` rejects its fork
segment (a laxer test than base-32: signs, underscores, whitespace and
uppercase are accepted, so e.g. `"-2.0"` is counted, not skipped); the
edit-index scan treats any unparseable version as `(0, 0)` and always
returns at least 1; and during a real derivation the fork scan also
returns at least 1, because the freshly inserted draft row `'0.0'` under
the same root contributes fork value 0. -/
theorem c10_malformed_version_tolerance :
    (∀ (s : List Node) (rootId : Nat) (n : Node), n.rootId = some rootId →
        ((splitDot1 n.version).2 = none ∨ pyIntBase32 (splitDot1 n.version).1 = none) →
        next_fork_index_for_root (n :: s) rootId = next_fork_index_for_root s rootId) ∧
    (∀ v : List Char, (splitDot1 v).2 = none → parse_version v = (0, 0)) ∧
    (∀ v f e, splitDot1 v = (f, some e) → pyIntBase32 f = none ∨ pyIntBase32 e = none →
        parse_version v = (0, 0)) ∧
    (∀ (s : List Node) (rootId : Nat) (forkStr : List Char) (userId : Nat),
        1 ≤ next_edit_index_user s rootId forkStr userId) ∧
    (∀ (s : List Node) (rootId : Nat),
        (∃ n ∈ s, n.rootId = some rootId ∧ n.version = ['0', '.', '0']) →
        1 ≤ next_fork_index_for_root s rootId) := by
  refine ⟨?_, ?_, ?_, fun s r f u => edit_index_ge_one s r f u, fun s r h => fork_index_ge_one s r h⟩
  · intro s rootId n hroot hbad
    have hnone : forkContrib n.version = none := by
      rcases hs : splitDot1 n.version with ⟨f, oe⟩
      cases oe with
      | none => simp only [forkContrib, hs]
      | some e =>
        rcases hbad with hb | hb
        · rw [hs] at hb
          exact absurd hb (by simp)
        · rw [hs] at hb
          simp only at hb
          simp only [forkContrib, hs]
          by_cases he : e = ['0']
          · rw [if_pos he, hb]
          · rw [if_neg he]
    simp only [next_fork_index_for_root]
    rw [List.filter_cons_of_pos (by rw [hroot]; exact beq_self_eq_true _),
      List.map_cons, List.filterMap_cons_none hnone]
  · intro v h
    by_cases hv : v = []
    · subst hv; decide
    · obtain ⟨f, hf⟩ : ∃ f, splitDot1 v = (f, none) := ⟨(splitDot1 v).1, by rw [← h]⟩
      simp only [parse_version, if_neg hv, hf]
  · intro v f e hsplit hfail
    have hv : v ≠ [] := by
      intro hnil
      rw [hnil] at hsplit
      simp [splitDot1] at hsplit
    rcases hfail with hf | hf
    · simp only [parse_version, if_neg hv, hsplit, hf]
    · cases hpf : pyIntBase32 f with
      | none => simp only [parse_version, if_neg hv, hsplit, hpf]
      | some a => simp only [parse_version, if_neg hv, hsplit, hpf, hf]

/-- A well-formed root row. -/
def exRoot : Node :=
  { id := 0, owner := 1, rootId := some 0, stemId := some 0, predId := none,
    version := ['0', '.', '0'], isPosted := false, isDeleted := false,
    createdAt := 0, forks := 0 }

/-- A row whose version `"z.0"` has a fork segment even Python's
`int(·, 32)` rejects. -/
def exC10skip : Node :=
  { id := 1, owner := 1, rootId := some 0, stemId := some 0, predId := some 0,
    version := ['z', '.', '0'], isPosted := false, isDeleted := false,
    createdAt := 1, forks := 0 }

/-- C10 witness: the amended theorem applied concretely — a row with
fork segment `"z"` is skipped by the fork-index scan. -/
theorem c10_witness :
    next_fork_index_for_root (exC10skip :: [exRoot]) 0 = next_fork_index_for_root [exRoot] 0 :=
  c10_malformed_version_tolerance.1 [exRoot] 0 exC10skip (by decide) (Or.inr (by decide))

/-! ### Claim C6 -/

/-- C6: the fork index allocated under a root is 1 + the maximum decoded
fork segment over the fork-head versions (versions whose edit segment is
exactly the string `"0"`) under that root, and 1 when no fork head
exists — gaps are not refilled.  Stated as: (a) no heads gives 1,
(b) every decodable head's fork value is below the allocated index,
(c) the allocated index is one head's fork value plus 1.  Heads are
assumed decodable (`from_base32`), which holds for all engine-written
versions. -/
theorem c6_fork_index_allocation (s : List Node) (rootId : Nat)
    (hdec : ∀ n ∈ s, n.rootId = some rootId → (splitDot1 n.version).2 = some ['0'] →
      (from_base32 (splitDot1 n.version).1).isSome) :
    ((∀ n ∈ s, n.rootId = some rootId → (splitDot1 n.version).2 ≠ some ['0']) →
        next_fork_index_for_root s rootId = 1) ∧
    (∀ n ∈ s, n.rootId = some rootId → ∀ f, splitDot1 n.version = (f, some ['0']) →
        ∀ k : Nat, from_base32 f = some k → (k : Int) < next_fork_index_for_root s rootId) ∧
    ((∃ n ∈ s, n.rootId = some rootId ∧ (splitDot1 n.version).2 = some ['0']) →
        ∃ n ∈ s, n.rootId = some rootId ∧ ∃ f : List Char, ∃ k : Nat,
          splitDot1 n.version = (f, some ['0']) ∧ from_base32 f = some k ∧
          next_fork_index_for_root s rootId = (k : Int) + 1) := by
  refine ⟨?_, ?_, ?_⟩
  · intro hnone
    have hnil : ((s.filter (fun n => n.rootId == some rootId)).map
        (fun n => n.version)).filterMap forkContrib = [] := by
      rw [List.filterMap_eq_nil_iff]
      intro v hv
      obtain ⟨m, hmf, hmv⟩ := List.mem_map.mp hv
      obtain ⟨hm, hmr⟩ := List.mem_filter.mp hmf
      have hmroot := beq_iff_eq.mp hmr
      rcases hs : splitDot1 v with ⟨f, oe⟩
      cases oe with
      | none => simp only [forkContrib, hs]
      | some e =>
        by_cases he : e = ['0']
        · subst he
          refine absurd ?_ (hnone m hm hmroot)
          rw [hmv, hs]
        · simp only [forkContrib, hs, if_neg he]
    simp only [next_fork_index_for_root]
    rw [hnil]
  · intro n hn hroot f hsplit k hk
    have hc : forkContrib n.version = some ((k : Nat) : Int) := by
      simp [forkContrib, hsplit, pyIntBase32_of_from_base32 f k hk]
    exact next_fork_gt_contrib s rootId n hn hroot _ hc
  · intro hne
    obtain ⟨n0, hn0, hroot0, hsplit0⟩ := hne
    obtain ⟨f0, hf0⟩ : ∃ f, splitDot1 n0.version = (f, some ['0']) :=
      ⟨(splitDot1 n0.version).1, by rw [← hsplit0]⟩
    obtain ⟨k0, hk0⟩ := Option.isSome_iff_exists.mp (hdec n0 hn0 hroot0 hsplit0)
    have hk0' : from_base32 f0 = some k0 := by
      rw [← hk0, hf0]
    have hcontrib0 : (forkContrib n0.version).isSome := by
      simp [forkContrib, hf0, pyIntBase32_of_from_base32 _ k0 hk0']
    obtain ⟨m, hm, hmroot, x, hx, heq⟩ := next_fork_attained s rootId ⟨n0, hn0, hroot0, hcontrib0⟩
    obtain ⟨f, hfs, hfp⟩ := forkContrib_some_inv m.version x hx
    have hfsome : (from_base32 f).isSome := by
      have := hdec m hm hmroot (by rw [hfs])
      rw [hfs] at this
      exact this
    obtain ⟨k, hk⟩ := Option.isSome_iff_exists.mp hfsome
    have : pyIntBase32 f = some ((k : Nat) : Int) := pyIntBase32_of_from_base32 f k hk
    rw [this] at hfp
    refine ⟨m, hm, hmroot, f, k, hfs, hk, ?_⟩
    rw [heq, Option.some.inj hfp]

/-- Fork head `"1.0"` under the example root. -/
def exC6b : Node :=
  { id := 1, owner := 2, rootId := some 0, stemId := some 1, predId := some 0,
    version := ['1', '.', '0'], isPosted := false, isDeleted := false,
    createdAt := 1, forks := 0 }

/-- Fork head `"3.0"` under the example root (legacy gap: no `"2.0"`). -/
def exC6c : Node :=
  { id := 2, owner := 3, rootId := some 0, stemId := some 2, predId := some 0,
    version := ['3', '.', '0'], isPosted := false, isDeleted := false,
    createdAt := 2, forks := 0 }

/-- C6 witness: with fork heads {0.0, 1.0, 3.0} the theorem bounds the
allocation below by `decode('3') = 3`, and the allocation is 4 — not 2,
the gap is not refilled. -/
theorem c6_witness :
    (3 : Int) < next_fork_index_for_root [exRoot, exC6b, exC6c] 0 ∧
    next_fork_index_for_root [exRoot, exC6b, exC6c] 0 = 4 :=
  ⟨(c6_fork_index_allocation [exRoot, exC6b, exC6c] 0 (by decide)).2.1 exC6c (by decide)
      (by decide) ['3'] (by decide) 3 (by decide),
    by decide⟩

/-! ### Claim C1 -/

/-- A soft-deleted row `"0.2"` owned by the same user as `exRoot7`. -/
def exC1del : Node :=
  { id := 1, owner := 7, rootId := some 0, stemId := some 0, predId := some 0,
    version := ['0', '.', '2'], isPosted := false, isDeleted := true,
    createdAt := 1, forks := 0 }

/-- A root row owned by user 7. -/
def exRoot7 : Node :=
  { id := 0, owner := 7, rootId := some 0, stemId := some 0, predId := none,
    version := ['0', '.', '0'], isPosted := false, isDeleted := false,
    createdAt := 0, forks := 0 }

/-- C1 counterexample: the edit-index scan does NOT include soft-deleted
nodes.  The store holds a soft-deleted row of the same owner, same root
and same fork segment with edit segment 2 — per the claim (max over ALL
nodes including soft-deleted ones) the next edit index would be 3 — yet
the scan returns 1, because `cls.objects` is the soft-delete manager and
filters `is_deleted=False` before taking the max. -/
theorem c1_counterexample :
    next_edit_index_user [exRoot7, exC1del] 0 ['0'] 7 = 1 ∧
    exC1del ∈ [exRoot7, exC1del] ∧ exC1del.isDeleted = true ∧
    exC1del.owner = 7 ∧ exC1del.rootId = some 0 ∧
    strStarts exC1del.version (['0'] ++ ['.']) = true ∧
    (parse_version exC1del.version).2 = 2 := by
  decide

lemma next_edit_gt_live (s : List Node) (rootId : Nat) (forkStr : List Char) (userId : Nat)
    (n : Node) (hn : n ∈ s) (hdel : n.isDeleted = false) (hroot : n.rootId = some rootId)
    (howner : n.owner = userId) (hstart : strStarts n.version (forkStr ++ ['.']) = true) :
    (parse_version n.version).2 < next_edit_index_user s rootId forkStr userId := by
  have hp : (!n.isDeleted && n.rootId == some rootId && n.owner == userId &&
      strStarts n.version (forkStr ++ ['.'])) = true := by
    rw [hdel, hroot, howner, hstart]
    simp
  have hmemv : n.version ∈ (s.filter (fun n =>
      !n.isDeleted && n.rootId == some rootId && n.owner == userId &&
        strStarts n.version (forkStr ++ ['.']))).map (fun n => n.version) :=
    List.mem_map.mpr ⟨n, List.mem_filter.mpr ⟨hn, hp⟩, rfl⟩
  have hle := foldl_sel_ge_mem (fun v => (parse_version v).2) _ n.version hmemv 0
  rw [next_edit_index_user]
  omega

/-- C1 (amended): the next edit index equals 1 + the maximum decoded
edit segment over the NON-deleted nodes under the root owned by the same
owner whose version starts with the fork segment (0 when none exist, so
the first edit after a fork head `x.0` is `x.1`): every such live node's
edit segment lies strictly below the returned index, and the index is 1
or one live matching node's edit segment plus 1. -/
theorem c1_next_edit_index (s : List Node) (rootId : Nat) (forkStr : List Char) (userId : Nat) :
    (∀ n ∈ s, n.isDeleted = false → n.rootId = some rootId → n.owner = userId →
        strStarts n.version (forkStr ++ ['.']) = true →
        (parse_version n.version).2 < next_edit_index_user s rootId forkStr userId) ∧
    (next_edit_index_user s rootId forkStr userId = 1 ∨
      ∃ n ∈ s, n.isDeleted = false ∧ n.rootId = some rootId ∧ n.owner = userId ∧
        strStarts n.version (forkStr ++ ['.']) = true ∧
        next_edit_index_user s rootId forkStr userId = (parse_version n.version).2 + 1) := by
  constructor
  · intro n hn hdel hroot howner hstart
    exact next_edit_gt_live s rootId forkStr userId n hn hdel hroot howner hstart
  · rcases foldl_sel_attained (fun v => (parse_version v).2)
      ((s.filter (fun n =>
        !n.isDeleted && n.rootId == some rootId && n.owner == userId &&
          strStarts n.version (forkStr ++ ['.']))).map (fun n => n.version)) 0 with h | ⟨v, hv, h⟩
    · left
      rw [next_edit_index_user, h]
      norm_num
    · right
      obtain ⟨n, hnf, hnv⟩ := List.mem_map.mp hv
      obtain ⟨hn, hp⟩ := List.mem_filter.mp hnf
      rw [Bool.and_eq_true, Bool.and_eq_true, Bool.and_eq_true] at hp
      refine ⟨n, hn, by simpa using hp.1.1.1, beq_iff_eq.mp hp.1.1.2,
        beq_iff_eq.mp hp.1.2, hp.2, ?_⟩
      rw [next_edit_index_user, h, hnv]

/-- C1 witness: the amended theorem applied to the counterexample store —
the live root's edit segment 0 lies below the returned index 1. -/
theorem c1_witness :
    (parse_version exRoot7.version).2 < next_edit_index_user [exRoot7, exC1del] 0 ['0'] 7 :=
  (c1_next_edit_index [exRoot7, exC1del] 0 ['0'] 7).1 exRoot7 (by decide) (by decide)
    (by decide) (by decide) (by decide)

/-! ### Claim C8 -/

lemma finalise_fork_frame (s : List Node) (owner srcId rid : Nat)
    (hbound : ∀ n ∈ s, n.id < s.length) :
    ∀ n ∈ s, (if n.id = srcId then { n with forks := n.forks + 1 } else n)
      ∈ finalise_fork s (s ++ [draftNode s owner rid srcId]) s.length srcId rid := by
  intro n hn
  have hnlt := hbound n hn
  have hge := fork_index_ge_one (s ++ [draftNode s owner rid srcId]) rid
    ⟨draftNode s owner rid srcId, List.mem_append_right _ (List.mem_singleton.mpr rfl), rfl, rfl⟩
  rw [finalise_fork, if_neg (by omega), List.map_map]
  refine List.mem_map.mpr ⟨n, List.mem_append_left _ hn, ?_⟩
  by_cases hsrc : n.id = srcId
  · have hne2 : ¬srcId = s.length := by omega
    simp [hsrc, hne2]
  · have hne2 : ¬n.id = s.length := by omega
    simp [hsrc, hne2]

/-- C8: a (forced) fork derivation leaves every pre-existing row in the
store unchanged except the captured origin row — resolved purely by its
id, regardless of its `is_deleted` state — whose `forks` counter is
incremented by exactly 1 and whose other fields are untouched. -/
theorem c8_fork_increments_origin (s : List Node) (srcId owner : Nat) (src : Node)
    (hfind : s.find? (fun n => n.id == srcId) = some src)
    (hbound : ∀ n ∈ s, n.id < s.length) :
    ∀ n ∈ s, (if n.id = srcId then { n with forks := n.forks + 1 } else n)
      ∈ step s (Op.derive srcId owner true) := by
  intro n hn
  simp only [step, hfind, Bool.not_true, Bool.and_false, Bool.false_eq_true, if_false]
  exact finalise_fork_frame s owner srcId _ hbound n hn

/-- A soft-deleted row acting as fork origin. -/
def exC8 : Node :=
  { id := 0, owner := 3, rootId := some 0, stemId := some 0, predId := none,
    version := ['0', '.', '0'], isPosted := false, isDeleted := true,
    createdAt := 0, forks := 0 }

/-- C8 witness: the theorem applied to a store whose single row — the
fork origin — is soft-deleted; its `forks` counter still goes from 0
to 1. -/
theorem c8_witness :
    ({ exC8 with forks := 1 } : Node) ∈ step [exC8] (Op.derive 0 5 true) := by
  have h := c8_fork_increments_origin [exC8] 0 5 exC8 (by decide) (by decide)
    exC8 (List.mem_singleton.mpr rfl)
  simpa [exC8] using h

/-! ### Claim C9 -/

lemma firstByCreated_eq_none_iff (l : List Node) : firstByCreated l = none ↔ l = [] := by
  cases l with
  | nil => simp [firstByCreated]
  | cons x xs =>
    simp only [firstByCreated]
    cases h : firstByCreated xs with
    | none => simp
    | some m =>
      by_cases hlt : m.createdAt < x.createdAt
      · simp [hlt]
      · simp [hlt]

lemma firstByCreated_mem : ∀ (l : List Node) (m : Node), firstByCreated l = some m →
    m ∈ l := by
  intro l
  induction l with
  | nil => intro m h; exact absurd h (by simp [firstByCreated])
  | cons x xs ih =>
    intro m h
    cases hr : firstByCreated xs with
    | none =>
      simp only [firstByCreated, hr] at h
      exact List.mem_cons.mpr (Or.inl (Option.some.inj h).symm)
    | some m' =>
      simp only [firstByCreated, hr] at h
      by_cases hlt : m'.createdAt < x.createdAt
      · rw [if_pos hlt] at h
        exact List.mem_cons_of_mem x (ih m (by rw [hr, h]))
      · rw [if_neg hlt] at h
        exact List.mem_cons.mpr (Or.inl (Option.some.inj h).symm)

lemma firstByCreated_min : ∀ (l : List Node), l.Pairwise (fun a b => a.id < b.id) →
    ∀ m : Node, firstByCreated l = some m →
    ∀ n ∈ l, m.createdAt < n.createdAt ∨ (m.createdAt = n.createdAt ∧ m.id ≤ n.id) := by
  intro l
  induction l with
  | nil => intro _ m h; exact absurd h (by simp [firstByCreated])
  | cons x xs ih =>
    intro hsort m h
    have hx := List.pairwise_cons.mp hsort
    cases hr : firstByCreated xs with
    | none =>
      simp only [firstByCreated, hr] at h
      have hxs : xs = [] := (firstByCreated_eq_none_iff xs).mp hr
      subst hxs
      intro n hn
      rw [List.mem_singleton] at hn
      subst hn
      right
      rw [← Option.some.inj h]
      exact ⟨rfl, le_refl _⟩
    | some m' =>
      simp only [firstByCreated, hr] at h
      have ihm := ih hx.2 m' hr
      by_cases hlt : m'.createdAt < x.createdAt
      · rw [if_pos hlt] at h
        have hm : m = m' := (Option.some.inj h).symm
        subst hm
        intro n hn
        rcases List.mem_cons.mp hn with rfl | hn'
        · exact Or.inl hlt
        · exact ihm n hn'
      · rw [if_neg hlt] at h
        have hm : m = x := (Option.some.inj h).symm
        subst hm
        intro n hn
        rcases List.mem_cons.mp hn with rfl | hn'
        · exact Or.inr ⟨rfl, le_refl _⟩
        · have hle : m.createdAt ≤ m'.createdAt := not_lt.mp hlt
          rcases ihm n hn' with hc | ⟨hc, _⟩
          · by_cases hceq : m.createdAt < n.createdAt
            · exact Or.inl hceq
            · exact Or.inr ⟨by omega, le_of_lt (hx.1 n hn')⟩
          · by_cases hceq : m.createdAt < n.createdAt
            · exact Or.inl hceq
            · exact Or.inr ⟨by omega, le_of_lt (hx.1 n hn')⟩

lemma firstByMetaOrder_eq_none_iff (l : List Node) : firstByMetaOrder l = none ↔ l = [] := by
  cases l with
  | nil => simp [firstByMetaOrder]
  | cons x xs =>
    simp only [firstByMetaOrder]
    cases h : firstByMetaOrder xs with
    | none => simp
    | some m =>
      by_cases hlt : m.createdAt > x.createdAt
      · simp [hlt]
      · simp [hlt]

lemma firstByMetaOrder_mem : ∀ (l : List Node) (m : Node), firstByMetaOrder l = some m →
    m ∈ l := by
  intro l
  induction l with
  | nil => intro m h; exact absurd h (by simp [firstByMetaOrder])
  | cons x xs ih =>
    intro m h
    cases hr : firstByMetaOrder xs with
    | none =>
      simp only [firstByMetaOrder, hr] at h
      exact List.mem_cons.mpr (Or.inl (Option.some.inj h).symm)
    | some m' =>
      simp only [firstByMetaOrder, hr] at h
      by_cases hlt : m'.createdAt > x.createdAt
      · rw [if_pos hlt] at h
        exact List.mem_cons_of_mem x (ih m (by rw [hr, h]))
      · rw [if_neg hlt] at h
        exact List.mem_cons.mpr (Or.inl (Option.some.inj h).symm)

/-- C9: fork-head resolution follows the five-step fallback chain in
order and never fails: (1) fork string `"0"` resolves to the root;
(2) else an exact `f.0` match under the root when one exists; (3) else,
when some node's version starts with `f.`, the earliest-created such
node (by `created_at`, breaking ties by id — rows are scanned in
insertion order, which the id-sortedness hypothesis captures); (4) else
the source itself when its fork segment is `f`; (5) else the root. -/
theorem c9_fork_head_resolution (s : List Node) (root src : Node) (fstr : List Char)
    (hsort : s.Pairwise (fun a b => a.id < b.id)) :
    (fstr = ['0'] → safe_fork_head_lookup s root src fstr = root) ∧
    (fstr ≠ ['0'] →
      (∃ n ∈ s, n.rootId = some root.id ∧ n.version = fstr ++ ['.', '0']) →
      safe_fork_head_lookup s root src fstr ∈ s ∧
        (safe_fork_head_lookup s root src fstr).rootId = some root.id ∧
        (safe_fork_head_lookup s root src fstr).version = fstr ++ ['.', '0']) ∧
    (fstr ≠ ['0'] →
      (∀ n ∈ s, ¬(n.rootId = some root.id ∧ n.version = fstr ++ ['.', '0'])) →
      (∃ n ∈ s, n.rootId = some root.id ∧ strStarts n.version (fstr ++ ['.']) = true) →
      safe_fork_head_lookup s root src fstr ∈ s ∧
        (safe_fork_head_lookup s root src fstr).rootId = some root.id ∧
        strStarts (safe_fork_head_lookup s root src fstr).version (fstr ++ ['.']) = true ∧
        (∀ n ∈ s, n.rootId = some root.id → strStarts n.version (fstr ++ ['.']) = true →
          (safe_fork_head_lookup s root src fstr).createdAt < n.createdAt ∨
            ((safe_fork_head_lookup s root src fstr).createdAt = n.createdAt ∧
              (safe_fork_head_lookup s root src fstr).id ≤ n.id))) ∧
    (fstr ≠ ['0'] →
      (∀ n ∈ s, ¬(n.rootId = some root.id ∧ n.version = fstr ++ ['.', '0'])) →
      (∀ n ∈ s, ¬(n.rootId = some root.id ∧ strStarts n.version (fstr ++ ['.']) = true)) →
      (splitDot1 (if src.version = [] then ['0', '.', '0'] else src.version)).1 = fstr →
      safe_fork_head_lookup s root src fstr = src) ∧
    (fstr ≠ ['0'] →
      (∀ n ∈ s, ¬(n.rootId = some root.id ∧ n.version = fstr ++ ['.', '0'])) →
      (∀ n ∈ s, ¬(n.rootId = some root.id ∧ strStarts n.version (fstr ++ ['.']) = true)) →
      (splitDot1 (if src.version = [] then ['0', '.', '0'] else src.version)).1 ≠ fstr →
      safe_fork_head_lookup s root src fstr = root) := by
  have hfilter1 : ∀ (hno : ∀ n ∈ s, ¬(n.rootId = some root.id ∧ n.version = fstr ++ ['.', '0'])),
      s.filter (fun n => n.rootId == some root.id && n.version == fstr ++ ['.', '0']) = [] := by
    intro hno
    rw [List.filter_eq_nil_iff]
    intro n hn hp
    rw [Bool.and_eq_true] at hp
    exact hno n hn ⟨beq_iff_eq.mp hp.1, beq_iff_eq.mp hp.2⟩
  have hfilter2 : ∀ (hno : ∀ n ∈ s, ¬(n.rootId = some root.id ∧ strStarts n.version (fstr ++ ['.']) = true)),
      s.filter (fun n => n.rootId == some root.id && strStarts n.version (fstr ++ ['.'])) = [] := by
    intro hno
    rw [List.filter_eq_nil_iff]
    intro n hn hp
    rw [Bool.and_eq_true] at hp
    exact hno n hn ⟨beq_iff_eq.mp hp.1, hp.2⟩
  refine ⟨?_, ?_, ?_, ?_, ?_⟩
  · intro h0
    rw [safe_fork_head_lookup, if_pos h0]
  · intro h0 hex
    obtain ⟨n, hn, hroot, hver⟩ := hex
    have hne : s.filter (fun n => n.rootId == some root.id && n.version == fstr ++ ['.', '0']) ≠ [] := by
      intro hnil
      rw [List.filter_eq_nil_iff] at hnil
      exact hnil n hn (by rw [hroot, hver]; simp)
    cases hm : firstByMetaOrder (s.filter (fun n =>
        n.rootId == some root.id && n.version == fstr ++ ['.', '0'])) with
    | none => exact absurd ((firstByMetaOrder_eq_none_iff _).mp hm) hne
    | some h =>
      have hmem := firstByMetaOrder_mem _ _ hm
      obtain ⟨hhm, hhp⟩ := List.mem_filter.mp hmem
      rw [Bool.and_eq_true] at hhp
      rw [safe_fork_head_lookup, if_neg h0, hm]
      exact ⟨hhm, beq_iff_eq.mp hhp.1, beq_iff_eq.mp hhp.2⟩
  · intro h0 hno hex
    obtain ⟨n, hn, hroot, hstart⟩ := hex
    rw [safe_fork_head_lookup, if_neg h0,
      (firstByMetaOrder_eq_none_iff _).mpr (hfilter1 hno)]
    have hne : s.filter (fun n => n.rootId == some root.id && strStarts n.version (fstr ++ ['.'])) ≠ [] := by
      intro hnil
      rw [List.filter_eq_nil_iff] at hnil
      exact hnil n hn (by rw [hroot, hstart]; simp)
    cases hm : firstByCreated (s.filter (fun n =>
        n.rootId == some root.id && strStarts n.version (fstr ++ ['.']))) with
    | none => exact absurd ((firstByCreated_eq_none_iff _).mp hm) hne
    | some h =>
      have hmem := firstByCreated_mem _ _ hm
      obtain ⟨hhm, hhp⟩ := List.mem_filter.mp hmem
      rw [Bool.and_eq_true] at hhp
      have hmin := firstByCreated_min _ (hsort.filter _) _ hm
      refine ⟨hhm, beq_iff_eq.mp hhp.1, hhp.2, ?_⟩
      intro m hmmem hmroot hmstart
      exact hmin m (List.mem_filter.mpr ⟨hmmem, by rw [hmroot, hmstart]; simp⟩)
  · intro h0 hno1 hno2 hmatch
    rw [safe_fork_head_lookup, if_neg h0,
      (firstByMetaOrder_eq_none_iff _).mpr (hfilter1 hno1),
      (firstByCreated_eq_none_iff _).mpr (hfilter2 hno2), if_pos hmatch]
  · intro h0 hno1 hno2 hmatch
    rw [safe_fork_head_lookup, if_neg h0,
      (firstByMetaOrder_eq_none_iff _).mpr (hfilter1 hno1),
      (firstByCreated_eq_none_iff _).mpr (hfilter2 hno2), if_neg hmatch]

/-- C9 witness: the theorem applied to the store {0.0, 1.0} with fork
string `"1"` — the exact head `1.0` is found by step (2) of the chain. -/
theorem c9_witness :
    safe_fork_head_lookup [exRoot, exC6b] exRoot exRoot ['1'] ∈ [exRoot, exC6b] ∧
    (safe_fork_head_lookup [exRoot, exC6b] exRoot exRoot ['1']).rootId = some exRoot.id ∧
    (safe_fork_head_lookup [exRoot, exC6b] exRoot exRoot ['1']).version = ['1'] ++ ['.', '0'] :=
  (c9_fork_head_resolution [exRoot, exC6b] exRoot exRoot ['1'] (by decide)).2.1
    (by decide) ⟨exC6b, by decide, by decide, by decide⟩

/-! ### The lineage view (`lineage_view` in views.py) -/

/-- The predecessor walk of `lineage_view`: follow
`immediate_predecessor` from the inspected node, collecting ids, until a
node repeats or the link is absent.  The walk adds one previously unseen
id per step and every id comes from the finite store (or the inspected
node), so `s.length + 1` steps of fuel are never exhausted before the
loop's own stopping conditions fire. -/
def ancestorWalkAux (s : List Node) : Nat → List Nat → Option Node → List Nat
  | 0, acc, _ => acc
  | _ + 1, acc, none => acc
  | fuel + 1, acc, some m =>
    if m.id ∈ acc then acc
    else ancestorWalkAux s fuel (acc ++ [m.id])
      (m.predId.bind (fun pid => s.find? (fun n => n.id == pid)))

/-- Ancestor-id set of the inspected node (`ancestor_ids` in the view). -/
def ancestorWalk (s : List Node) (cur : Node) : List Nat :=
  ancestorWalkAux s (s.length + 1) [] (some cur)

/-- Effective-root resolution of `lineage_view`: the nominal root (the
`root` FK object, or the node itself when the FK is null or dangling);
if it is soft-deleted and some non-deleted row shares its root id, the
oldest such row (by `created_at`) is substituted. -/
def resolvedRoot (s : List Node) (cur : Node) : Node :=
  let root : Node := match cur.rootId with
    | some rid => (s.find? (fun n => n.id == rid)).getD cur
    | none => cur
  if root.isDeleted then
    (firstByCreated (s.filter (fun n => n.rootId == some root.id && !n.isDeleted))).getD root
  else root

/-- The node set `lineage_view` builds the graph from: for the owner of
the inspected node, the whole lineage of the resolved root; for any
other requester the rows that are posted or on the predecessor walk —
all queried through `with_deleted()`, with NO deletion filter.  When the
filter comes back empty, the inspected row alone is used. -/
def lineageNodes (s : List Node) (cur : Node) (requester : Option Nat) : List Node :=
  let rr := resolvedRoot s cur
  let visible :=
    if requester == some cur.owner then
      s.filter (fun n => n.rootId == some rr.id)
    else
      s.filter (fun n => n.rootId == some rr.id &&
        (n.isPosted || (ancestorWalk s cur).contains n.id))
  if visible.isEmpty then s.filter (fun n => n.id == cur.id) else visible

/-! ### Claim C3 -/

/-- A posted, live root. -/
def exC3root : Node :=
  { id := 0, owner := 1, rootId := some 0, stemId := some 0, predId := none,
    version := ['0', '.', '0'], isPosted := true, isDeleted := false,
    createdAt := 0, forks := 0 }

/-- A posted but soft-deleted edit off the inspected node's ancestor
path. -/
def exC3del : Node :=
  { id := 1, owner := 1, rootId := some 0, stemId := some 0, predId := some 0,
    version := ['0', '.', '1'], isPosted := true, isDeleted := true,
    createdAt := 1, forks := 0 }

/-- C3 counterexample: for a non-owner request, a soft-deleted node off
the ancestor path DOES appear in the graph's node set when it is posted —
the view filters `with_deleted()` by `posted OR on-path` and never
checks `is_deleted`. -/
theorem c3_counterexample :
    exC3del ∈ lineageNodes [exC3root, exC3del] exC3root (some 2) ∧
    exC3del.isDeleted = true ∧
    ((ancestorWalk [exC3root, exC3del] exC3root).contains exC3del.id) = false := by
  decide

/-- C3 (amended): for a non-owner request whose filter is non-empty, the
node set used to build the graph contains exactly the nodes of the
resolved root's lineage that are publicly posted — whether or not they
are soft-deleted — plus every node on the predecessor walk from the
inspected node (included even if deleted or unposted). -/
theorem c3_visible_set (s : List Node) (cur : Node) (requester : Option Nat)
    (hreq : requester ≠ some cur.owner)
    (hne : ∃ n ∈ s, n.rootId = some (resolvedRoot s cur).id ∧
      (n.isPosted = true ∨ n.id ∈ ancestorWalk s cur)) :
    ∀ n : Node, n ∈ lineageNodes s cur requester ↔
      (n ∈ s ∧ n.rootId = some (resolvedRoot s cur).id ∧
        (n.isPosted = true ∨ n.id ∈ ancestorWalk s cur)) := by
  intro n
  have hreqb : (requester == some cur.owner) = false := by
    rcases hb : requester == some cur.owner with _ | _
    · rfl
    · exact absurd (beq_iff_eq.mp hb) hreq
  have hpredeq : ∀ m : Node, (m.rootId == some (resolvedRoot s cur).id &&
      (m.isPosted || (ancestorWalk s cur).contains m.id)) = true ↔
      (m.rootId = some (resolvedRoot s cur).id ∧
        (m.isPosted = true ∨ m.id ∈ ancestorWalk s cur)) := by
    intro m
    rw [Bool.and_eq_true, Bool.or_eq_true]
    constructor
    · rintro ⟨h1, h2⟩
      refine ⟨beq_iff_eq.mp h1, ?_⟩
      rcases h2 with h2 | h2
      · exact Or.inl h2
      · exact Or.inr (List.elem_iff.mp h2)
    · rintro ⟨h1, h2⟩
      refine ⟨beq_iff_eq.mpr h1, ?_⟩
      rcases h2 with h2 | h2
      · exact Or.inl h2
      · exact Or.inr (List.elem_iff.mpr h2)
  have hfilterne : s.filter (fun m => m.rootId == some (resolvedRoot s cur).id &&
      (m.isPosted || (ancestorWalk s cur).contains m.id)) ≠ [] := by
    obtain ⟨m, hm, hmr, hmp⟩ := hne
    intro hnil
    rw [List.filter_eq_nil_iff] at hnil
    exact hnil m hm ((hpredeq m).mpr ⟨hmr, hmp⟩)
  rw [lineageNodes]
  simp only [hreqb, Bool.false_eq_true, if_false]
  rw [if_neg (by simpa using hfilterne)]
  constructor
  · intro hmem
    obtain ⟨hm, hp⟩ := List.mem_filter.mp hmem
    exact ⟨hm, (hpredeq n).mp hp⟩
  · rintro ⟨hm, hp⟩
    exact List.mem_filter.mpr ⟨hm, (hpredeq n).mpr hp⟩

/-- C3 witness: the amended theorem applied to the counterexample store:
the deleted posted row is in the node set because it is posted. -/
theorem c3_witness :
    exC3del ∈ lineageNodes [exC3root, exC3del] exC3root (some 5) :=
  (c3_visible_set [exC3root, exC3del] exC3root (some 5) (by decide)
      ⟨exC3root, by decide, by decide, Or.inl (by decide)⟩ exC3del).mpr
    ⟨by decide, by decide, Or.inl (by decide)⟩

/-! ### The layout pass (`lineage_view` coordinate assignment) -/

lemma filter_ge_succ_lt (taken : List Int) (r : Int) (hr : r ∈ taken) :
    (taken.filter (fun x => r + 1 ≤ x)).length < (taken.filter (fun x => r ≤ x)).length := by
  induction taken with
  | nil => cases hr
  | cons y ys ih =>
    have hmono : (ys.filter (fun x => r + 1 ≤ x)).length ≤ (ys.filter (fun x => r ≤ x)).length :=
      (List.monotone_filter_right ys (fun x hx => by
        rw [decide_eq_true_iff] at hx
        rw [decide_eq_true_iff]
        omega)).length_le
    simp only [List.filter_cons]
    rcases List.mem_cons.mp hr with rfl | hr'
    · have h1 : ¬(r + 1 ≤ r) := by omega
      simp only [decide_eq_false h1, decide_eq_true (le_refl r), Bool.false_eq_true, if_false,
        if_true, List.length_cons]
      omega
    · have hih := ih hr'
      by_cases hy : r + 1 ≤ y
      · have hy2 : r ≤ y := by omega
        simp only [decide_eq_true hy, decide_eq_true hy2, if_true, List.length_cons]
        omega
      · by_cases hy2 : r ≤ y
        · simp only [decide_eq_false hy, decide_eq_true hy2, Bool.false_eq_true, if_false,
            if_true, List.length_cons]
          omega
        · simp only [decide_eq_false hy, decide_eq_false hy2, Bool.false_eq_true, if_false]
          omega

/-- One `while proposed_row in taken_rows[f]: proposed_row += 1` loop of
the coordinate pass: the first row at or above `r` that is not yet
taken. -/
def bumpRow (taken : List Int) (r : Int) : Int :=
  if r ∈ taken then bumpRow taken (r + 1) else r
termination_by (taken.filter (fun x => r ≤ x)).length
decreasing_by exact filter_ge_succ_lt taken r (by assumption)

lemma bumpRow_not_mem (taken : List Int) (r : Int) : bumpRow taken r ∉ taken := by
  by_cases h : r ∈ taken
  · rw [bumpRow, if_pos h]
    exact bumpRow_not_mem taken (r + 1)
  · rw [bumpRow, if_neg h]
    exact h
termination_by (taken.filter (fun x => r ≤ x)).length
decreasing_by exact filter_ge_succ_lt taken r h

/-- Layout constants of `lineage_view`. -/
def X0 : Int := 120

def Y0 : Int := 640

def COL_GAP : Int := 160

def ROW_GAP : Int := 90

/-- The placement order `sorted(patches, key=(fork value, created_at,
id))` as a boolean comparator for the stable merge sort. -/
def placementLe (a b : Node) : Bool :=
  (parse_version a.version).1 < (parse_version b.version).1 ||
    ((parse_version a.version).1 == (parse_version b.version).1 &&
      (a.createdAt < b.createdAt || (a.createdAt == b.createdAt && a.id ≤ b.id)))

/-- The row-assignment loop of `lineage_view`: in placement order, each
node's candidate row is `max(depth + max(0, sibling_rank - 1),
chrono_rank)`, bumped past the rows already taken in its fork column,
then marked taken.  `depthOf`, `sibOf`, `chronoOf` are the three
rank dictionaries with their `.get` defaults (0, 1, 0) already applied;
the output records `(id, fork column, row)` per node. -/
def placeRows (depthOf sibOf chronoOf : Nat → Int) :
    List Node → (Int → List Int) → List (Nat × Int × Int) → List (Nat × Int × Int)
  | [], _, acc => acc.reverse
  | p :: rest, taken, acc =>
    let f := (parse_version p.version).1
    let cand := max (depthOf p.id + max 0 (sibOf p.id - 1)) (chronoOf p.id)
    let row := bumpRow (taken f) cand
    placeRows depthOf sibOf chronoOf rest
      (fun k => if k == f then row :: taken k else taken k) ((p.id, f, row) :: acc)

/-- Full coordinate assignment: sort, place rows, then
`x = X0 + f * COL_GAP`, `y = Y0 - row * ROW_GAP` (ids are primary keys,
so the per-id coordinate dict of the view coincides with this per-row
list). -/
def lineageLayout (depthOf sibOf chronoOf : Nat → Int) (nodes : List Node) :
    List (Nat × Int × Int) :=
  (placeRows depthOf sibOf chronoOf (nodes.mergeSort placementLe) (fun _ => []) []).map
    (fun e => (e.1, X0 + e.2.1 * COL_GAP, Y0 - e.2.2 * ROW_GAP))

/-! ### Claim C7 -/

lemma placeRows_pairwise (depthOf sibOf chronoOf : Nat → Int) :
    ∀ (l : List Node) (taken : Int → List Int) (acc : List (Nat × Int × Int)),
      (∀ e ∈ acc, e.2.2 ∈ taken e.2.1) →
      acc.Pairwise (fun a b => a.2.1 = b.2.1 → a.2.2 ≠ b.2.2) →
      (placeRows depthOf sibOf chronoOf l taken acc).Pairwise
        (fun a b => a.2.1 = b.2.1 → a.2.2 ≠ b.2.2) := by
  intro l
  induction l with
  | nil =>
    intro taken acc hin hpw
    rw [placeRows]
    exact List.pairwise_reverse.mpr (hpw.imp (fun h hx => (h hx.symm).symm))
  | cons p rest ih =>
    intro taken acc hin hpw
    rw [placeRows]
    apply ih
    · intro e he
      rcases List.mem_cons.mp he with rfl | he'
      · simp
      · have hmem := hin e he'
        by_cases hk : e.2.1 = (parse_version p.version).1
        · rw [if_pos (beq_iff_eq.mpr hk)]
          exact List.mem_cons_of_mem _ hmem
        · rw [if_neg (by simpa using hk)]
          exact hmem
    · refine List.pairwise_cons.mpr ⟨?_, hpw⟩
      intro e he hx
      intro heq
      dsimp only at hx heq
      have hrow := bumpRow_not_mem (taken (parse_version p.version).1)
        (max (depthOf p.id + max 0 (sibOf p.id - 1)) (chronoOf p.id))
      have hmem := hin e he
      rw [← hx] at hmem
      rw [← heq] at hmem
      exact hrow hmem

/-- C7: in the emitted layout no two entries share both a fork column
(`x`) and a row (`y`): every node's candidate row is bumped past the
rows already occupied in its column before the row is marked occupied,
so rows are unique per column and hence so are the `y` values, whatever
the depth/sibling/chronological ranks are. -/
theorem c7_layout_collision_free (depthOf sibOf chronoOf : Nat → Int) (nodes : List Node) :
    (lineageLayout depthOf sibOf chronoOf nodes).Pairwise
      (fun a b => a.2.1 = b.2.1 → a.2.2 ≠ b.2.2) := by
  rw [lineageLayout]
  rw [List.pairwise_map]
  apply List.Pairwise.imp ?_
    (placeRows_pairwise depthOf sibOf chronoOf (nodes.mergeSort placementLe)
      (fun _ => []) [] (by intro e he; cases he) List.Pairwise.nil)
  intro a b h hx hy
  have hcol : a.2.1 = b.2.1 := by
    simp only [X0, COL_GAP] at hx
    omega
  have hrow : a.2.2 ≠ b.2.2 := h hcol
  simp only [Y0, ROW_GAP] at hy
  omega

/-- C7 witness: the theorem applied to concrete ranks and the concrete
three-node store {0.0, 1.0, 3.0}. -/
theorem c7_witness :
    (lineageLayout (fun _ => 0) (fun _ => 1) (fun _ => 0) [exRoot, exC6b, exC6c]).Pairwise
      (fun a b => a.2.1 = b.2.1 → a.2.2 ≠ b.2.2) :=
  c7_layout_collision_free (fun _ => 0) (fun _ => 1) (fun _ => 0) [exRoot, exC6b, exC6c]

/-! ### Claim C2: infrastructure

The amended uniqueness invariant is proved by induction over operation
sequences.  The next definitions name the rows `step` produces, so the
induction can rewrite `step` into the form `old rows (possibly with a
bumped fork counter) ++ [new row]`. -/

/-- The row a completed edit derivation leaves in the store. -/
def editNode (s : List Node) (srcId w : Nat) (src : Node) : Node :=
  { id := s.length, owner := w, rootId := some (rootNodeOf s src).id,
    stemId := some (safe_fork_head_lookup (s ++ [draftNode s w (rootNodeOf s src).id srcId])
      (rootNodeOf s src) src (forkStrOf src)).id,
    predId := some srcId,
    version := forkStrOf src ++ '.' :: to_base32 (next_edit_index_user
      (s ++ [draftNode s w (rootNodeOf s src).id srcId]) (rootNodeOf s src).id
      (forkStrOf src) w).toNat,
    isPosted := false, isDeleted := false, createdAt := s.length, forks := 0 }

/-- The row a completed fork derivation leaves in the store. -/
def forkNode (s : List Node) (srcId w : Nat) (src : Node) : Node :=
  { id := s.length, owner := w, rootId := some (rootNodeOf s src).id,
    stemId := some s.length, predId := some srcId,
    version := to_base32 (next_fork_index_for_root
      (s ++ [draftNode s w (rootNodeOf s src).id srcId]) (rootNodeOf s src).id).toNat
      ++ ['.', '0'],
    isPosted := false, isDeleted := false, createdAt := s.length, forks := 0 }

/-- The `forks`-counter update a fork applies to the origin row. -/
def forkBump (srcId : Nat) (n : Node) : Node :=
  if n.id == srcId then { n with forks := n.forks + 1 } else n

/-- Engine-written versions: encoded fork and edit segment joined by a
dot. -/
def Canonical (v : List Char) : Prop :=
  ∃ a b : Nat, v = to_base32 a ++ '.' :: to_base32 b

/-- The inductive invariant of the store.  `uniq` is the amended C2
property; the other fields are what makes it inductive:
ids are the row positions' indices (fresh ids stay fresh), every row's
root FK resolves, versions are canonical, a fork segment determines the
owner within a lineage, and every row's fork segment has a fork head
row. -/
structure Inv (s : List Node) : Prop where
  idBound : ∀ n ∈ s, n.id < s.length
  rootEx : ∀ n ∈ s, ∃ r ∈ s, n.rootId = some r.id
  canon : ∀ n ∈ s, Canonical n.version
  ownerCoh : ∀ n ∈ s, ∀ m ∈ s, n.rootId = m.rootId →
    (splitDot1 n.version).1 = (splitDot1 m.version).1 → n.owner = m.owner
  headEx : ∀ n ∈ s, ∃ h ∈ s, h.rootId = n.rootId ∧
    h.version = (splitDot1 n.version).1 ++ ['.', '0']
  uniq : ∀ n ∈ s, ∀ m ∈ s, n.isDeleted = false → m.isDeleted = false →
    n.rootId = m.rootId → n.version = m.version → n.id = m.id

lemma find?_id_spec (s : List Node) (srcId : Nat) (src : Node)
    (h : s.find? (fun n => n.id == srcId) = some src) : src ∈ s ∧ src.id = srcId := by
  have hp := List.find?_some h
  exact ⟨List.mem_of_find?_eq_some h, beq_iff_eq.mp (by simpa using hp)⟩

lemma rootNodeOf_spec (s : List Node) (src : Node)
    (h : ∃ r ∈ s, src.rootId = some r.id) :
    rootNodeOf s src ∈ s ∧ src.rootId = some (rootNodeOf s src).id := by
  obtain ⟨r, hr, hrid⟩ := h
  simp only [rootNodeOf, hrid]
  cases hf : s.find? (fun n => n.id == r.id) with
  | none =>
    rw [List.find?_eq_none] at hf
    exact absurd (beq_self_eq_true r.id) (hf r hr)
  | some r' =>
    have hr' := List.mem_of_find?_eq_some hf
    have hp := List.find?_some hf
    have hid : r'.id = r.id := beq_iff_eq.mp (by simpa using hp)
    simp only [Option.getD_some]
    exact ⟨hr', by rw [hid]⟩

lemma pyInt_to_base32 (k : Nat) : pyIntBase32 (to_base32 k) = some (k : Int) :=
  pyIntBase32_of_from_base32 _ k (from_base32_to_base32 k)

lemma canonical_ne_nil (a : Nat) (rest : List Char) : to_base32 a ++ '.' :: rest ≠ [] := by
  simp

lemma parse_version_canonical (a b : Nat) :
    parse_version (to_base32 a ++ '.' :: to_base32 b) = ((a : Int), (b : Int)) := by
  simp only [parse_version, if_neg (canonical_ne_nil a (to_base32 b)),
    splitDot1_to_base32, pyInt_to_base32]

lemma forkStrOf_canonical (src : Node) (a b : Nat)
    (h : src.version = to_base32 a ++ '.' :: to_base32 b) : forkStrOf src = to_base32 a := by
  rw [forkStrOf, if_neg (by rw [h]; exact canonical_ne_nil a _), h, splitDot1_to_base32]

lemma strStarts_dot_shape (fstr rest : List Char) :
    strStarts (fstr ++ '.' :: rest) (fstr ++ ['.']) = true := by
  have h : fstr ++ '.' :: rest = (fstr ++ ['.']) ++ rest := by simp
  rw [h]
  exact strStarts_of_shape (fstr ++ ['.']) rest

lemma fork_val_lt_next (s1 : List Node) (rootId : Nat) (h : Node) (hh : h ∈ s1)
    (hroot : h.rootId = some rootId) (a : Nat)
    (hver : h.version = to_base32 a ++ ['.', '0']) :
    (a : Int) < next_fork_index_for_root s1 rootId := by
  apply next_fork_gt_contrib s1 rootId h hh hroot
  have hsplit : splitDot1 h.version = (to_base32 a, some ['0']) := by
    rw [hver]
    exact splitDot1_to_base32 a ['0']
  simp [forkContrib, hsplit, pyInt_to_base32]

lemma map_id_of_mem (s : List Node) (g : Node → Node) (hg : ∀ n ∈ s, g n = n) :
    s.map g = s := by
  induction s with
  | nil => rfl
  | cons x xs ih =>
    rw [List.map_cons, hg x (List.mem_cons_self x xs),
      ih (fun n hn => hg n (List.mem_cons_of_mem x hn))]

lemma step_derive_none (s : List Node) (srcId w : Nat) (ff : Bool)
    (hfind : s.find? (fun n => n.id == srcId) = none) :
    step s (Op.derive srcId w ff) = s := by
  simp only [step, hfind]

lemma step_derive_edit (s : List Node) (srcId w : Nat) (src : Node)
    (hfind : s.find? (fun n => n.id == srcId) = some src) (ff : Bool)
    (hcond : (w == src.owner && !ff) = true)
    (hbound : ∀ n ∈ s, n.id < s.length) :
    step s (Op.derive srcId w ff) = s ++ [editNode s srcId w src] := by
  simp only [step, hfind, hcond, if_true]
  simp only [finalise_edit, List.map_append, List.map_singleton]
  congr 1
  · apply map_id_of_mem
    intro n hn
    have hfn : (n.id == s.length) = false := by
      simpa using Nat.ne_of_lt (hbound n hn)
    simp only [hfn, Bool.false_eq_true, if_false]
  · simp [editNode, draftNode]

lemma step_derive_fork (s : List Node) (srcId w : Nat) (src : Node)
    (hfind : s.find? (fun n => n.id == srcId) = some src) (ff : Bool)
    (hcond : (w == src.owner && !ff) = false)
    (hbound : ∀ n ∈ s, n.id < s.length) (hsrclt : srcId < s.length) :
    step s (Op.derive srcId w ff) = s.map (forkBump srcId) ++ [forkNode s srcId w src] := by
  simp only [step, hfind, hcond, Bool.false_eq_true, if_false]
  have hge : 1 ≤ next_fork_index_for_root
      (s ++ [draftNode s w (rootNodeOf s src).id srcId]) (rootNodeOf s src).id :=
    fork_index_ge_one _ _ ⟨draftNode s w (rootNodeOf s src).id srcId,
      List.mem_append_right _ (List.mem_singleton.mpr rfl), rfl, rfl⟩
  simp only [finalise_fork]
  rw [if_neg (by omega)]
  simp only [List.map_map, List.map_append, List.map_singleton]
  congr 1
  · apply List.map_congr_left
    intro n hn
    have hfn : (n.id == s.length) = false := by
      simpa using Nat.ne_of_lt (hbound n hn)
    simp only [Function.comp_apply, hfn, Bool.false_eq_true, if_false]
    rfl
  · have hsl : (s.length == srcId) = false := by
      simpa using Nat.ne_of_gt hsrclt
    simp [forkNode, draftNode, forkBump, hsl]

lemma mem_append_single (x n : Node) (s : List Node) (h : n ∈ s ++ [x]) :
    n ∈ s ∨ n = x := by
  rcases List.mem_append.mp h with h | h
  · exact Or.inl h
  · exact Or.inr (List.mem_singleton.mp h)

lemma no_old_root_at_len (s : List Node) (hs : Inv s) :
    ∀ m ∈ s, m.rootId ≠ some s.length := by
  intro m hm heq
  obtain ⟨r, hr, hrid⟩ := hs.rootEx m hm
  rw [heq] at hrid
  have hid : s.length = r.id := by injection hrid
  have := hs.idBound r hr
  omega

lemma step_createRoot (s : List Node) (w : Nat) :
    step s (Op.createRoot w) = s ++ [newRootNode s w] := rfl

lemma inv_createRoot (s : List Node) (w : Nat) (hs : Inv s) :
    Inv (s ++ [newRootNode s w]) := by
  have hlen : (s ++ [newRootNode s w]).length = s.length + 1 := by simp
  have hNid : (newRootNode s w).id = s.length := rfl
  have hNroot : (newRootNode s w).rootId = some s.length := rfl
  have hNver : (newRootNode s w).version = ['0', '.', '0'] := rfl
  have hnold := no_old_root_at_len s hs
  constructor
  · intro n hn
    rw [hlen]
    rcases mem_append_single _ n s hn with h | h
    · exact Nat.lt_succ_of_lt (hs.idBound n h)
    · rw [h, hNid]; omega
  · intro n hn
    rcases mem_append_single _ n s hn with h | h
    · obtain ⟨r, hr, hrid⟩ := hs.rootEx n h
      exact ⟨r, List.mem_append_left _ hr, hrid⟩
    · refine ⟨newRootNode s w, List.mem_append_right _ (List.mem_singleton.mpr rfl), ?_⟩
      rw [h, hNroot, hNid]
  · intro n hn
    rcases mem_append_single _ n s hn with h | h
    · exact hs.canon n h
    · exact ⟨0, 0, by rw [h, hNver]; decide⟩
  · intro n hn m hm hroot hfork
    rcases mem_append_single _ n s hn with h1 | h1 <;>
      rcases mem_append_single _ m s hm with h2 | h2
    · exact hs.ownerCoh n h1 m h2 hroot hfork
    · exfalso; apply hnold n h1; rw [hroot, h2, hNroot]
    · exfalso; apply hnold m h2; rw [← hroot, h1, hNroot]
    · rw [h1, h2]
  · intro n hn
    rcases mem_append_single _ n s hn with h | h
    · obtain ⟨hd, hhd, hr, hv⟩ := hs.headEx n h
      exact ⟨hd, List.mem_append_left _ hhd, hr, hv⟩
    · refine ⟨newRootNode s w, List.mem_append_right _ (List.mem_singleton.mpr rfl),
        by rw [h], ?_⟩
      rw [h, hNver]; decide
  · intro n hn m hm hdn hdm hroot hver
    rcases mem_append_single _ n s hn with h1 | h1 <;>
      rcases mem_append_single _ m s hm with h2 | h2
    · exact hs.uniq n h1 m h2 hdn hdm hroot hver
    · exfalso; apply hnold n h1; rw [hroot, h2, hNroot]
    · exfalso; apply hnold m h2; rw [← hroot, h1, hNroot]
    · rw [h1, h2]

lemma inv_append_edit (s : List Node) (E src : Node) (hs : Inv s)
    (hsrc : src ∈ s) (a b k : Nat)
    (hsver : src.version = to_base32 a ++ '.' :: to_base32 b)
    (hroot : E.rootId = src.rootId)
    (hEid : E.id = s.length)
    (hEowner : E.owner = src.owner)
    (hEver : E.version = to_base32 a ++ '.' :: to_base32 k)
    (hnodup : ∀ m ∈ s, m.isDeleted = false → m.rootId = E.rootId →
      m.version = E.version → False) :
    Inv (s ++ [E]) := by
  have hlen : (s ++ [E]).length = s.length + 1 := by simp
  have hsepE : (splitDot1 E.version).1 = to_base32 a := by
    rw [hEver, splitDot1_to_base32]
  have hsepS : (splitDot1 src.version).1 = to_base32 a := by
    rw [hsver, splitDot1_to_base32]
  constructor
  · intro n hn
    rw [hlen]
    rcases mem_append_single _ n s hn with h | h
    · exact Nat.lt_succ_of_lt (hs.idBound n h)
    · rw [h, hEid]; omega
  · intro n hn
    rcases mem_append_single _ n s hn with h | h
    · obtain ⟨r, hr, hrid⟩ := hs.rootEx n h
      exact ⟨r, List.mem_append_left _ hr, hrid⟩
    · obtain ⟨r, hr, hrid⟩ := hs.rootEx src hsrc
      exact ⟨r, List.mem_append_left _ hr, by rw [h, hroot]; exact hrid⟩
  · intro n hn
    rcases mem_append_single _ n s hn with h | h
    · exact hs.canon n h
    · exact ⟨a, k, by rw [h, hEver]⟩
  · intro n hn m hm hroots hfork
    rcases mem_append_single _ n s hn with h1 | h1 <;>
      rcases mem_append_single _ m s hm with h2 | h2
    · exact hs.ownerCoh n h1 m h2 hroots hfork
    · rw [h2] at hroots hfork
      rw [h2, hEowner]
      exact hs.ownerCoh n h1 src hsrc (by rw [hroots, hroot])
        (by rw [hfork, hsepE, hsepS])
    · rw [h1] at hroots hfork
      rw [h1, hEowner]
      exact (hs.ownerCoh m h2 src hsrc (by rw [← hroots, hroot])
        (by rw [← hfork, hsepE, hsepS])).symm
    · rw [h1, h2]
  · intro n hn
    rcases mem_append_single _ n s hn with h | h
    · obtain ⟨hd, hhd, hr, hv⟩ := hs.headEx n h
      exact ⟨hd, List.mem_append_left _ hhd, hr, hv⟩
    · obtain ⟨hd, hhd, hr, hv⟩ := hs.headEx src hsrc
      refine ⟨hd, List.mem_append_left _ hhd, ?_, ?_⟩
      · rw [hr, h, hroot]
      · rw [hv, hsepS, h, hsepE]
  · intro n hn m hm hdn hdm hroots hver
    rcases mem_append_single _ n s hn with h1 | h1 <;>
      rcases mem_append_single _ m s hm with h2 | h2
    · exact hs.uniq n h1 m h2 hdn hdm hroots hver
    · rw [h2] at hroots hver
      exact (hnodup n h1 hdn hroots hver).elim
    · rw [h1] at hroots hver
      exact (hnodup m h2 hdm hroots.symm hver.symm).elim
    · rw [h1, h2]

lemma to_base32_zero : to_base32 0 = ['0'] := rfl

lemma forkBump_id (i : Nat) (n : Node) : (forkBump i n).id = n.id := by
  rw [forkBump]; split <;> rfl

lemma forkBump_owner (i : Nat) (n : Node) : (forkBump i n).owner = n.owner := by
  rw [forkBump]; split <;> rfl

lemma forkBump_rootId (i : Nat) (n : Node) : (forkBump i n).rootId = n.rootId := by
  rw [forkBump]; split <;> rfl

lemma forkBump_version (i : Nat) (n : Node) : (forkBump i n).version = n.version := by
  rw [forkBump]; split <;> rfl

lemma forkBump_isDeleted (i : Nat) (n : Node) : (forkBump i n).isDeleted = n.isDeleted := by
  rw [forkBump]; split <;> rfl

lemma inv_map_append_fork (s : List Node) (F : Node) (i : Nat) (hs : Inv s)
    (hFid : F.id = s.length)
    (hFroot : ∃ r ∈ s, F.rootId = some r.id)
    (c : Nat)
    (hFver : F.version = to_base32 c ++ '.' :: to_base32 0)
    (hfresh : ∀ m ∈ s, m.rootId = F.rootId →
      (splitDot1 m.version).1 = to_base32 c → False) :
    Inv (s.map (forkBump i) ++ [F]) := by
  have hlen : (s.map (forkBump i) ++ [F]).length = s.length + 1 := by simp
  have hsepF : (splitDot1 F.version).1 = to_base32 c := by
    rw [hFver, splitDot1_to_base32]
  have hmem : ∀ x, x ∈ s.map (forkBump i) ++ [F] →
      (∃ n ∈ s, x = forkBump i n) ∨ x = F := by
    intro x hx
    rcases mem_append_single _ x _ hx with h | h
    · obtain ⟨n, hn, he⟩ := List.mem_map.mp h
      exact Or.inl ⟨n, hn, he.symm⟩
    · exact Or.inr h
  constructor
  · intro x hx
    rw [hlen]
    rcases hmem x hx with ⟨n, hn, he⟩ | he
    · rw [he, forkBump_id]
      exact Nat.lt_succ_of_lt (hs.idBound n hn)
    · rw [he, hFid]; omega
  · intro x hx
    rcases hmem x hx with ⟨n, hn, he⟩ | he
    · obtain ⟨r, hr, hrid⟩ := hs.rootEx n hn
      refine ⟨forkBump i r, List.mem_append_left _ (List.mem_map_of_mem _ hr), ?_⟩
      rw [he, forkBump_rootId, forkBump_id]
      exact hrid
    · obtain ⟨r, hr, hrid⟩ := hFroot
      refine ⟨forkBump i r, List.mem_append_left _ (List.mem_map_of_mem _ hr), ?_⟩
      rw [he, forkBump_id]
      exact hrid
  · intro x hx
    rcases hmem x hx with ⟨n, hn, he⟩ | he
    · rw [he]
      obtain ⟨p, q, hv⟩ := hs.canon n hn
      exact ⟨p, q, by rw [forkBump_version]; exact hv⟩
    · exact ⟨c, 0, by rw [he]; exact hFver⟩
  · intro x hx y hy hroots hfork
    rcases hmem x hx with ⟨n, hn, he1⟩ | he1 <;>
      rcases hmem y hy with ⟨m, hm, he2⟩ | he2
    · rw [he1, he2, forkBump_rootId, forkBump_rootId] at hroots
      rw [he1, he2, forkBump_version, forkBump_version] at hfork
      rw [he1, he2, forkBump_owner, forkBump_owner]
      exact hs.ownerCoh n hn m hm hroots hfork
    · rw [he1, forkBump_rootId] at hroots
      rw [he1, he2, forkBump_version] at hfork
      rw [he2] at hroots
      exact (hfresh n hn hroots (by rw [hfork, hsepF])).elim
    · rw [he2, forkBump_rootId] at hroots
      rw [he1, he2, forkBump_version] at hfork
      rw [he1] at hroots
      exact (hfresh m hm hroots.symm (by rw [← hfork, hsepF])).elim
    · rw [he1, he2]
  · intro x hx
    rcases hmem x hx with ⟨n, hn, he⟩ | he
    · obtain ⟨hd, hhd, hr, hv⟩ := hs.headEx n hn
      refine ⟨forkBump i hd, List.mem_append_left _ (List.mem_map_of_mem _ hhd), ?_, ?_⟩
      · rw [forkBump_rootId, hr, he, forkBump_rootId]
      · rw [forkBump_version, hv, he, forkBump_version]
    · refine ⟨F, List.mem_append_right _ (List.mem_singleton.mpr rfl), by rw [he], ?_⟩
      rw [he, hsepF, hFver, to_base32_zero]
  · intro x hx y hy hdx hdy hroots hver
    rcases hmem x hx with ⟨n, hn, he1⟩ | he1 <;>
      rcases hmem y hy with ⟨m, hm, he2⟩ | he2
    · rw [he1, forkBump_isDeleted] at hdx
      rw [he2, forkBump_isDeleted] at hdy
      rw [he1, he2, forkBump_rootId, forkBump_rootId] at hroots
      rw [he1, he2, forkBump_version, forkBump_version] at hver
      rw [he1, he2, forkBump_id, forkBump_id]
      exact hs.uniq n hn m hm hdx hdy hroots hver
    · rw [he1, forkBump_rootId] at hroots
      rw [he1, he2, forkBump_version] at hver
      rw [he2] at hroots
      exact (hfresh n hn hroots (by rw [hver, hsepF])).elim
    · rw [he2, forkBump_rootId] at hroots
      rw [he1, he2, forkBump_version] at hver
      rw [he1] at hroots
      exact (hfresh m hm hroots.symm (by rw [← hver, hsepF])).elim
    · rw [he1, he2]

lemma softDel_id (i : Nat) (n : Node) : (softDel i n).id = n.id := by
  rw [softDel]; split <;> rfl

lemma softDel_owner (i : Nat) (n : Node) : (softDel i n).owner = n.owner := by
  rw [softDel]; split <;> rfl

lemma softDel_rootId (i : Nat) (n : Node) : (softDel i n).rootId = n.rootId := by
  rw [softDel]; split <;> rfl

lemma softDel_version (i : Nat) (n : Node) : (softDel i n).version = n.version := by
  rw [softDel]; split <;> rfl

lemma softDel_live (i : Nat) (n : Node) (h : (softDel i n).isDeleted = false) :
    softDel i n = n := by
  rw [softDel] at h ⊢
  by_cases hc : (n.id == i) = true
  · rw [if_pos hc] at h
    simp at h
  · rw [if_neg hc]

lemma inv_softDelete (s : List Node) (i : Nat) (hs : Inv s) :
    Inv (s.map (softDel i)) := by
  have hmem : ∀ x, x ∈ s.map (softDel i) → ∃ n ∈ s, x = softDel i n := by
    intro x hx
    obtain ⟨n, hn, he⟩ := List.mem_map.mp hx
    exact ⟨n, hn, he.symm⟩
  constructor
  · intro x hx
    obtain ⟨n, hn, he⟩ := hmem x hx
    rw [List.length_map, he, softDel_id]
    exact hs.idBound n hn
  · intro x hx
    obtain ⟨n, hn, he⟩ := hmem x hx
    obtain ⟨r, hr, hrid⟩ := hs.rootEx n hn
    refine ⟨softDel i r, List.mem_map_of_mem _ hr, ?_⟩
    rw [he, softDel_rootId, softDel_id]
    exact hrid
  · intro x hx
    obtain ⟨n, hn, he⟩ := hmem x hx
    obtain ⟨p, q, hv⟩ := hs.canon n hn
    exact ⟨p, q, by rw [he, softDel_version]; exact hv⟩
  · intro x hx y hy hroots hfork
    obtain ⟨n, hn, he1⟩ := hmem x hx
    obtain ⟨m, hm, he2⟩ := hmem y hy
    rw [he1, he2, softDel_rootId, softDel_rootId] at hroots
    rw [he1, he2, softDel_version, softDel_version] at hfork
    rw [he1, he2, softDel_owner, softDel_owner]
    exact hs.ownerCoh n hn m hm hroots hfork
  · intro x hx
    obtain ⟨n, hn, he⟩ := hmem x hx
    obtain ⟨hd, hhd, hr, hv⟩ := hs.headEx n hn
    refine ⟨softDel i hd, List.mem_map_of_mem _ hhd, ?_, ?_⟩
    · rw [softDel_rootId, hr, he, softDel_rootId]
    · rw [softDel_version, hv, he, softDel_version]
  · intro x hx y hy hdx hdy hroots hver
    obtain ⟨n, hn, he1⟩ := hmem x hx
    obtain ⟨m, hm, he2⟩ := hmem y hy
    have hx' : x = n := by rw [he1]; exact softDel_live i n (by rw [← he1]; exact hdx)
    have hy' : y = m := by rw [he2]; exact softDel_live i m (by rw [← he2]; exact hdy)
    rw [hx'] at hdx hroots hver
    rw [hy'] at hdy hroots hver
    rw [hx', hy']
    exact hs.uniq n hn m hm hdx hdy hroots hver

lemma inv_step (s : List Node) (op : Op) (hs : Inv s) : Inv (step s op) := by
  cases op with
  | createRoot w =>
    rw [step_createRoot]
    exact inv_createRoot s w hs
  | derive srcId w ff =>
    cases hfind : s.find? (fun n => n.id == srcId) with
    | none =>
      rw [step_derive_none s srcId w ff hfind]
      exact hs
    | some src =>
      obtain ⟨hsrcmem, hsrcid⟩ := find?_id_spec s srcId src hfind
      obtain ⟨a, b, hsver⟩ := hs.canon src hsrcmem
      have hrn := rootNodeOf_spec s src (hs.rootEx src hsrcmem)
      have hfstr : forkStrOf src = to_base32 a := forkStrOf_canonical src a b hsver
      by_cases hcond : (w == src.owner && !ff) = true
      · have hw : w = src.owner := by
          have h := hcond
          simp only [Bool.and_eq_true, beq_iff_eq] at h
          exact h.1
        rw [step_derive_edit s srcId w src hfind ff hcond hs.idBound]
        refine inv_append_edit s (editNode s srcId w src) src hs hsrcmem a b
          ((next_edit_index_user (s ++ [draftNode s w (rootNodeOf s src).id srcId])
            (rootNodeOf s src).id (forkStrOf src) w).toNat)
          hsver hrn.2.symm rfl hw ?_ ?_
        · show forkStrOf src ++ '.' :: to_base32 _ = _
          rw [hfstr]
        · intro m hm hmdel hmroot hmver
          have hmroot' : m.rootId = some (rootNodeOf s src).id := hmroot
          have hmver' : m.version = to_base32 a ++ '.' ::
              to_base32 (next_edit_index_user
                (s ++ [draftNode s w (rootNodeOf s src).id srcId])
                (rootNodeOf s src).id (forkStrOf src) w).toNat := by
            rw [hmver]
            show forkStrOf src ++ '.' :: to_base32 _ = _
            rw [hfstr]
          have hmsplit : (splitDot1 m.version).1 = to_base32 a := by
            rw [hmver', splitDot1_to_base32]
          have hssplit : (splitDot1 src.version).1 = to_base32 a := by
            rw [hsver, splitDot1_to_base32]
          have howner : m.owner = src.owner :=
            hs.ownerCoh m hm src hsrcmem (by rw [hmroot']; exact hrn.2.symm)
              (by rw [hmsplit, hssplit])
          have hstart : strStarts m.version (forkStrOf src ++ ['.']) = true := by
            rw [hmver', hfstr]
            exact strStarts_dot_shape _ _
          have hlt := next_edit_gt_live
            (s ++ [draftNode s w (rootNodeOf s src).id srcId])
            (rootNodeOf s src).id (forkStrOf src) w m
            (List.mem_append_left _ hm) hmdel hmroot' (howner.trans hw.symm) hstart
          have h1 : 1 ≤ next_edit_index_user
              (s ++ [draftNode s w (rootNodeOf s src).id srcId])
              (rootNodeOf s src).id (forkStrOf src) w :=
            edit_index_ge_one _ _ _ _
          rw [hmver', parse_version_canonical] at hlt
          simp only at hlt
          omega
      · have hcond' : (w == src.owner && !ff) = false := by
          revert hcond
          cases (w == src.owner && !ff) <;> simp
        have hsrclt : srcId < s.length := hsrcid ▸ hs.idBound src hsrcmem
        rw [step_derive_fork s srcId w src hfind ff hcond' hs.idBound hsrclt]
        refine inv_map_append_fork s (forkNode s srcId w src) srcId hs rfl
          ⟨rootNodeOf s src, hrn.1, rfl⟩
          ((next_fork_index_for_root
            (s ++ [draftNode s w (rootNodeOf s src).id srcId])
            (rootNodeOf s src).id).toNat)
          (by show to_base32 _ ++ ['.', '0'] = _
              rw [to_base32_zero]) ?_
        intro m hm hmroot hmsplit
        obtain ⟨hd, hhd, hdroot, hdver⟩ := hs.headEx m hm
        have hdver' : hd.version = to_base32 ((next_fork_index_for_root
            (s ++ [draftNode s w (rootNodeOf s src).id srcId])
            (rootNodeOf s src).id).toNat) ++ ['.', '0'] := by
          rw [hdver, hmsplit]
        have hdroot' : hd.rootId = some (rootNodeOf s src).id := by
          rw [hdroot]
          exact hmroot
        have hlt := fork_val_lt_next
          (s ++ [draftNode s w (rootNodeOf s src).id srcId])
          (rootNodeOf s src).id hd (List.mem_append_left _ hhd) hdroot' _ hdver'
        have h1 : 1 ≤ next_fork_index_for_root
            (s ++ [draftNode s w (rootNodeOf s src).id srcId])
            (rootNodeOf s src).id :=
          fork_index_ge_one _ _ ⟨draftNode s w (rootNodeOf s src).id srcId,
            List.mem_append_right _ (List.mem_singleton.mpr rfl), rfl, rfl⟩
        omega
  | softDelete i =>
    exact inv_softDelete s i hs

lemma inv_run (ops : List Op) : Inv (run ops) := by
  have hnil : Inv ([] : List Node) := by
    constructor <;> intro n hn <;> simp at hn
  have key : ∀ (l : List Op) (s : List Node), Inv s → Inv (l.foldl step s) := by
    intro l
    induction l with
    | nil => intro s hs; exact hs
    | cons op rest ih => intro s hs; exact ih (step s op) (inv_step s op hs)
  exact key ops [] hnil

def exC2ops : List Op :=
  [Op.createRoot 7, Op.derive 0 7 false, Op.softDelete 1, Op.derive 0 7 false]

def exC2a : Node :=
  { id := 0, owner := 7, rootId := some 0, stemId := some 0, predId := none,
    version := ['0', '.', '0'], isPosted := false, isDeleted := false,
    createdAt := 0, forks := 0 }

def exC2b : Node :=
  { id := 1, owner := 7, rootId := some 0, stemId := some 0, predId := some 0,
    version := ['0', '.', '1'], isPosted := false, isDeleted := false,
    createdAt := 1, forks := 0 }

def exC2bDel : Node :=
  { id := 1, owner := 7, rootId := some 0, stemId := some 0, predId := some 0,
    version := ['0', '.', '1'], isPosted := false, isDeleted := true,
    createdAt := 1, forks := 0 }

def exC2c : Node :=
  { id := 2, owner := 7, rootId := some 0, stemId := some 0, predId := some 0,
    version := ['0', '.', '1'], isPosted := false, isDeleted := false,
    createdAt := 2, forks := 0 }

lemma toBase32Digits_zero : toBase32Digits 0 = [] :=
  (toBase32Digits_eq_nil_iff 0).mpr rfl

lemma toBase32Digits_one : toBase32Digits 1 = ['1'] := by
  show toBase32Digits (0 + 1) = ['1']
  rw [toBase32Digits]
  have h32 : (0 + 1) / 32 = 0 := by norm_num
  rw [h32, toBase32Digits_zero]
  decide

lemma to_base32_one : to_base32 1 = ['1'] := by
  rw [to_base32, if_neg one_ne_zero, toBase32Digits_one]
  rfl

lemma exC2run2 : run [Op.createRoot 7, Op.derive 0 7 false] = [exC2a, exC2b] := by
  show step (step [] (Op.createRoot 7)) (Op.derive 0 7 false) = _
  have h1 : step [] (Op.createRoot 7) = [exC2a] := rfl
  rw [h1, step_derive_edit [exC2a] 0 7 exC2a (by decide) false (by decide) (by decide)]
  have hne : (next_edit_index_user
      ([exC2a] ++ [draftNode [exC2a] 7 (rootNodeOf [exC2a] exC2a).id 0])
      (rootNodeOf [exC2a] exC2a).id (forkStrOf exC2a) 7).toNat = 1 := by decide
  have hE : editNode [exC2a] 0 7 exC2a = exC2b := by
    rw [editNode, hne, to_base32_one]
    decide
  rw [hE]
  rfl

lemma exC2run4 : run exC2ops = [exC2a, exC2bDel, exC2c] := by
  show step (step (run [Op.createRoot 7, Op.derive 0 7 false])
    (Op.softDelete 1)) (Op.derive 0 7 false) = _
  rw [exC2run2]
  have h3 : step [exC2a, exC2b] (Op.softDelete 1) = [exC2a, exC2bDel] := by decide
  rw [h3, step_derive_edit [exC2a, exC2bDel] 0 7 exC2a (by decide) false (by decide)
    (by decide)]
  have hne : (next_edit_index_user
      ([exC2a, exC2bDel] ++ [draftNode [exC2a, exC2bDel] 7
        (rootNodeOf [exC2a, exC2bDel] exC2a).id 0])
      (rootNodeOf [exC2a, exC2bDel] exC2a).id (forkStrOf exC2a) 7).toNat = 1 := by decide
  have hE : editNode [exC2a, exC2bDel] 0 7 exC2a = exC2c := by
    rw [editNode, hne, to_base32_one]
    decide
  rw [hE]
  rfl

/-- C2, counterexample to the claim as stated: version uniqueness does NOT
hold counting soft-deleted nodes as still present.  Create a root, edit it
(version 0.1), soft-delete the edit, edit again: the edit-index scan runs
through the default manager and skips the deleted row, so the second edit
is also assigned 0.1 — two distinct nodes under the same root with equal
version strings, one deleted, one live. -/
theorem c2_counterexample :
    ∃ n ∈ run exC2ops, ∃ m ∈ run exC2ops,
      n.id ≠ m.id ∧ n.rootId = m.rootId ∧ n.version = m.version ∧
      n.isDeleted = true ∧ m.isDeleted = false := by
  rw [exC2run4]
  decide

/-- C2 (amended): after any sequence of root creations, edit derivations,
fork derivations, and soft-deletes, every two distinct NON-deleted nodes
sharing the same root have distinct version strings (uniqueness among live
rows is an invariant; a soft-deleted node's version can be reissued). -/
theorem c2_version_uniqueness (ops : List Op) :
    ∀ n ∈ run ops, ∀ m ∈ run ops, n.isDeleted = false → m.isDeleted = false →
      n.rootId = m.rootId → n.id ≠ m.id → n.version ≠ m.version := by
  intro n hn m hm hdn hdm hroot hne hver
  exact hne ((inv_run ops).uniq n hn m hm hdn hdm hroot hver)

theorem c2_witness : exC2a.version ≠ exC2b.version :=
  c2_version_uniqueness [Op.createRoot 7, Op.derive 0 7 false]
    exC2a (by rw [exC2run2]; decide)
    exC2b (by rw [exC2run2]; decide) (by decide) (by decide) (by decide) (by decide)

end SynthShare
